import Mathlib

/-!
Shallow embedding of the liblk LK-image codec (liblk/image.py,
liblk/structures/header.py, liblk/structures/partition.py).

Byte buffers are `List Nat` (each entry a byte value); machine integers are
`Nat` with explicit `% 2^32` where ctypes `c_uint` truncation matters.
Python exceptions become `Except` results; in-place mutation becomes explicit
state passing.
-/

namespace Liblk

/-- `Magic.MAGIC` from liblk/constants.py. -/
def MAGIC : Nat := 0x58881688

/-- `Magic.EXT_MAGIC` from liblk/constants.py. -/
def EXT_MAGIC : Nat := 0x58891689

/-- `Pattern.LOADADDR = bytes.fromhex('10FF2FE1')` from liblk/constants.py. -/
def LOADADDR : List Nat := [0x10, 0xFF, 0x2F, 0xE1]

/-- Little-endian value of a byte list (`int.from_bytes(b, 'little')`). -/
def leVal : List Nat → Nat
  | [] => 0
  | b :: rest => b + 256 * leVal rest

/-- 4-byte little-endian encoding of `v % 2^32` (ctypes `c_uint` serialization). -/
def le32 (v : Nat) : List Nat :=
  [v % 256, v / 256 % 256, v / 65536 % 256, v / 16777216 % 256]

/-- Read a 32-bit little-endian value at byte offset `i`
    (`struct.unpack_from('<I', b, i)` / `int.from_bytes(b[i:i+4], 'little')`). -/
def readLE32 (b : List Nat) (i : Nat) : Nat :=
  leVal ((b.drop i).take 4)

/-- First index at which `needle` occurs in `buf` (Python `bytes.find`,
    returning `none` for Python's `-1`). -/
def findSub (buf needle : List Nat) : Option Nat :=
  if needle.isPrefixOf buf then some 0
  else
    match buf with
    | [] => none
    | _ :: t => (findSub t needle).map (· + 1)

/-- ASCII lowercasing of a byte (`str.lower` restricted to ASCII). -/
def lowerByte (b : Nat) : Nat :=
  if 65 ≤ b ∧ b ≤ 90 then b + 32 else b

/-- ASCII lowercasing of a byte string. -/
def lowerBytes (s : List Nat) : List Nat := s.map lowerByte

/-- `'cert'` as ASCII bytes. -/
def certPrefix : List Nat := [99, 101, 114, 116]

/-- `'lk'` as ASCII bytes. -/
def lkName : List Nat := [108, 107]

/-- `ImageType` struct from liblk/structures/header.py
    (fields `_id`, `reserved0`, `reserved1`, `_group`, each `c_uint8`). -/
structure ImageType where
  tid : Nat
  reserved0 : Nat
  reserved1 : Nat
  group : Nat
deriving Repr, DecidableEq

/-- `ImageHeader` ctypes struct from liblk/structures/header.py: 512 bytes,
    all little-endian `c_uint` fields except the two `c_char` arrays.
    `cname` holds the raw 32 stored name bytes, `padding` the raw 432
    trailing bytes. -/
structure ImageHeader where
  magic : Nat
  dsize : Nat
  cname : List Nat
  maddr : Nat
  mode : Nat
  ext_magic : Nat
  hdr_size : Nat
  hdr_version : Nat
  image_type : ImageType
  image_list_end : Nat
  alignment : Nat
  dsize_extend : Nat
  maddr_extend : Nat
  padding : List Nat
deriving Repr, DecidableEq

namespace ImageHeader

/-- `ImageHeader.is_header`: the magic field matches `MAGIC`. -/
def is_header (h : ImageHeader) : Bool := h.magic == MAGIC

/-- `ImageHeader.is_extended`: the ext magic field matches `EXT_MAGIC`. -/
def is_extended (h : ImageHeader) : Bool := h.ext_magic == EXT_MAGIC

/-- `ImageHeader.name` as stored bytes up to the first NUL terminator
    (ctypes `c_char * 32` read semantics). -/
def nameBytes (h : ImageHeader) : List Nat := h.cname.takeWhile (· ≠ 0)

/-- `ImageHeader.data_size` property getter:
    `(dsize_extend << 32) | dsize` when extended, else `dsize`. -/
def data_size (h : ImageHeader) : Nat :=
  if h.is_extended then h.dsize_extend <<< 32 ||| h.dsize else h.dsize

/-- `ImageHeader.data_size` property setter: the low word always gets
    `value & 0xFFFFFFFF`; the high word gets `(value >> 32) & 0xFFFFFFFF`
    only on extended headers. -/
def setDataSize (h : ImageHeader) (v : Nat) : ImageHeader :=
  if h.is_extended then
    { h with dsize := v % 2 ^ 32, dsize_extend := v / 2 ^ 32 % 2 ^ 32 }
  else
    { h with dsize := v % 2 ^ 32 }

/-- `ImageHeader.memory_address` property getter. -/
def memory_address (h : ImageHeader) : Nat :=
  if h.is_extended then h.maddr_extend <<< 32 ||| h.maddr else h.maddr

/-- `ImageHeader.memory_address` property setter. -/
def setMemoryAddress (h : ImageHeader) (v : Nat) : ImageHeader :=
  if h.is_extended then
    { h with maddr := v % 2 ^ 32, maddr_extend := v / 2 ^ 32 % 2 ^ 32 }
  else
    { h with maddr := v % 2 ^ 32 }

/-- `ImageHeader.size` property: `hdr_size` when extended, else
    `sizeof(ImageHeader) = 512`. -/
def size (h : ImageHeader) : Nat :=
  if h.is_extended then h.hdr_size else 512

/-- `ImageHeader.end_offset(offset) = offset + size + data_size`. -/
def end_offset (h : ImageHeader) (offset : Nat) : Nat :=
  offset + h.size + h.data_size

end ImageHeader

/-- `bytes(header)`: raw 512-byte ctypes layout of `ImageHeader`
    (fields at offsets 0,4,8,40,44,48,52,56,60,64,68,72,76,80). -/
def headerBytes (h : ImageHeader) : List Nat :=
  le32 h.magic ++ le32 h.dsize ++ h.cname ++ le32 h.maddr ++ le32 h.mode ++
  le32 h.ext_magic ++ le32 h.hdr_size ++ le32 h.hdr_version ++
  [h.image_type.tid % 256, h.image_type.reserved0 % 256,
   h.image_type.reserved1 % 256, h.image_type.group % 256] ++
  le32 h.image_list_end ++ le32 h.alignment ++ le32 h.dsize_extend ++
  le32 h.maddr_extend ++ h.padding

/-- Read the single byte at offset `i` (a `c_uint8` field). -/
def readByte (b : List Nat) (i : Nat) : Nat := b.getD i 0

/-- `ImageHeader.from_buffer_copy(b)`: decode the 512-byte ctypes layout;
    ctypes raises `ValueError` when the buffer is shorter than the struct. -/
def headerFromBytes (b : List Nat) : Except Unit ImageHeader :=
  if b.length < 512 then .error ()
  else .ok
    { magic := readLE32 b 0
      dsize := readLE32 b 4
      cname := (b.drop 8).take 32
      maddr := readLE32 b 40
      mode := readLE32 b 44
      ext_magic := readLE32 b 48
      hdr_size := readLE32 b 52
      hdr_version := readLE32 b 56
      image_type :=
        { tid := readByte b 60, reserved0 := readByte b 61
          reserved1 := readByte b 62, group := readByte b 63 }
      image_list_end := readLE32 b 64
      alignment := readLE32 b 68
      dsize_extend := readLE32 b 72
      maddr_extend := readLE32 b 76
      padding := (b.drop 80).take 432 }

/-- Error taxonomy for the modelled Python exceptions. -/
inductive PErr where
  /-- `InvalidLkPartition` (any failure wrapped by `LkPartition.from_bytes`,
      bad magic, certificate before owner). -/
  | invalidPartition
  /-- `InvalidLkPartition` for a duplicate partition name during parsing. -/
  | duplicateName
  /-- `ValueError` (name too long, data-size mismatch in `__bytes__`,
      invalid certificate type, duplicate name on add). -/
  | valueError
  /-- `KeyError` (partition not found on remove/patch). -/
  | keyError
  /-- `NeedleNotFoundException`. -/
  | needleNotFound
  /-- Fuel exhaustion of the modelled `while` loop (the Python loop can
      diverge on degenerate headers; this marker never occurs for the runs
      reasoned about below). -/
  | outOfFuel
deriving Repr, DecidableEq

/-- `LkPartition` from liblk/structures/partition.py: header, raw payload,
    end offset, attached certificate partitions (themselves partitions),
    and the optional resolved `lk_address`. -/
inductive LkPartition : Type where
  | mk (header : ImageHeader) (data : List Nat) (endOffset : Nat)
       (certs : List LkPartition) (lkAddress : Option Nat) : LkPartition
deriving Repr

namespace LkPartition

/-- The partition's header. -/
def header : LkPartition → ImageHeader
  | .mk h _ _ _ _ => h

/-- The partition's raw payload bytes (`LkPartition.data`). -/
def data : LkPartition → List Nat
  | .mk _ d _ _ _ => d

/-- The partition's `end_offset`. -/
def endOffset : LkPartition → Nat
  | .mk _ _ e _ _ => e

/-- The partition's certificate list (`LkPartition.certs`). -/
def certs : LkPartition → List LkPartition
  | .mk _ _ _ c _ => c

/-- The partition's `lk_address` attribute. -/
def lkAddress : LkPartition → Option Nat
  | .mk _ _ _ _ a => a

/-- Assign `p.header.image_list_end = v` (ctypes `c_uint` assignment). -/
def setListEnd (v : Nat) : LkPartition → LkPartition
  | .mk h d e c a => .mk { h with image_list_end := v % 2 ^ 32 } d e c a

/-- Assign `p.end_offset = v`. -/
def setEndOffset (v : Nat) : LkPartition → LkPartition
  | .mk h d _ c a => .mk h d v c a

/-- Replace the certificate list. -/
def setCerts (cs : List LkPartition) : LkPartition → LkPartition
  | .mk h d e _ a => .mk h d e cs a

end LkPartition

mutual

/-- `LkPartition.__bytes__`: raise `ValueError` when `header.data_size`
    disagrees with the payload length, else emit header block, payload,
    zero padding to the alignment boundary (8 for legacy headers, the
    header's alignment field otherwise, 0 meaning none), then each
    certificate's own serialization in order. -/
def partitionBytesE : LkPartition → Except PErr (List Nat)
  | .mk h d _ cs _ =>
    if h.data_size ≠ d.length then .error .valueError
    else
      let alignment := if h.is_extended then h.alignment else 8
      let paddingSize :=
        if alignment ≠ 0 ∧ h.data_size % alignment ≠ 0 then
          alignment - h.data_size % alignment
        else 0
      match certsBytesE cs with
      | .error e => .error e
      | .ok cb => .ok (headerBytes h ++ d ++ List.replicate paddingSize 0 ++ cb)

/-- `b''.join(bytes(cert) for cert in certs)`, propagating the first error. -/
def certsBytesE : List LkPartition → Except PErr (List Nat)
  | [] => .ok []
  | c :: cs =>
    match partitionBytesE c with
    | .error e => .error e
    | .ok b =>
      match certsBytesE cs with
      | .error e => .error e
      | .ok r => .ok (b ++ r)

end

/-- `header.name` access: ctypes yields the stored bytes up to the first
    NUL; `bytes.decode('ascii')` then fails on any byte ≥ 128. -/
def decodeName (cname : List Nat) : Except PErr (List Nat) :=
  let nm := cname.takeWhile (· ≠ 0)
  if nm.all (· < 128) then .ok nm else .error .invalidPartition

/-- `'BFBF'` as ASCII bytes. -/
def bfbfMarker : List Nat := [66, 70, 66, 70]

/-- `LkPartition.from_bytes(contents, offset)` from
    liblk/structures/partition.py: decode the (possibly BFBF-shifted)
    512-byte header window, check the magic, compute the aligned end
    offset, slice the payload at `contents[header.size : header.size +
    data_size]`, and resolve the `lk` load address by searching `contents`
    for `LOADADDR` when the stored address is the 32-bit sentinel.  Every
    failure inside the body is wrapped as `InvalidLkPartition`. -/
def fromBytes (contents : List Nat) (offset : Nat) : Except PErr LkPartition :=
  let startOff := if contents.take 4 = bfbfMarker then 0x4040 else 0
  let headerContents := (contents.drop startOff).take 512
  match headerFromBytes headerContents with
  | .error _ => .error .invalidPartition
  | .ok header =>
    if ¬ header.is_header then .error .invalidPartition
    else
      let endOff0 := header.end_offset offset
      let alignment := if header.is_extended then header.alignment else 8
      let endOff :=
        if alignment ≠ 0 ∧ endOff0 % alignment ≠ 0 then
          endOff0 + (alignment - endOff0 % alignment)
        else endOff0
      let partitionData := (contents.drop header.size).take header.data_size
      match decodeName header.cname with
      | .error e => .error e
      | .ok nm =>
        if lowerBytes nm = lkName then
          let lkAddr := header.memory_address
          if lkAddr % 2 ^ 32 = 0xFFFFFFFF then
            match findSub contents LOADADDR with
            | some i =>
              if i + 8 + 4 ≤ contents.length then
                .ok (.mk header partitionData endOff []
                      (some (readLE32 contents (i + 8))))
              else .error .invalidPartition
            | none => .ok (.mk header partitionData endOff [] (some lkAddr))
          else .ok (.mk header partitionData endOff [] (some lkAddr))
        else .ok (.mk header partitionData endOff [] none)

/-- Ordered name → partition collection (`OrderedDict` in insertion order). -/
abbrev Parts := List (List Nat × LkPartition)

/-- `name in self.partitions`. -/
def hasKey (ps : Parts) (k : List Nat) : Bool :=
  ps.any (fun e => e.1 == k)

/-- `self.partitions[last_name].certs.append(partition)`: append a
    certificate to the entry named `k`. -/
def appendCert (ps : Parts) (k : List Nat) (c : LkPartition) : Parts :=
  ps.map (fun e => if e.1 == k then (e.1, e.2.setCerts (e.2.certs ++ [c])) else e)

/-- `LkImage._is_end_of_partitions(offset)`: end of the stream, fewer than
    512 bytes remaining, or no `MAGIC` at the next offset. -/
def isEndOfPartitions (contents : List Nat) (offset : Nat) : Bool :=
  if offset ≥ contents.length then true
  else if contents.length - offset < 512 then true
  else if readLE32 contents offset ≠ MAGIC then true
  else false

/-- `LkImage._is_valid_image_list_end(value)`: `value in (0, 1)`. -/
def isValidImageListEnd (v : Nat) : Bool := v == 0 || v == 1

/-- One pass of the `while offset < len(self.contents)` loop of
    `LkImage._parse_partitions`, with explicit fuel standing in for the
    loop's (not obviously well-founded) progress.  State: current offset,
    `last_name`, and the partitions parsed so far. -/
def parseLoop (contents : List Nat) :
    Nat → Nat → List Nat → Parts → Except PErr Parts
  | 0, _, _, _ => .error .outOfFuel
  | fuel + 1, offset, lastName, parts =>
    if offset < contents.length then
      match fromBytes (contents.drop offset) offset with
      | .error e =>
        if ¬ parts.isEmpty ∧ lastName = lkName then .ok parts
        else if ¬ parts.isEmpty then .ok parts
        else .error e
      | .ok part =>
        if part.header.magic ≠ MAGIC then .error .invalidPartition
        else
          let partName := part.header.nameBytes
          let step : Except PErr (List Nat × Parts) :=
            if certPrefix.isPrefixOf partName then
              if ¬ hasKey parts lastName then .error .invalidPartition
              else .ok (lastName, appendCert parts lastName part)
            else if ¬ hasKey parts partName then
              .ok (partName, parts ++ [(partName, part)])
            else .error .duplicateName
          match step with
          | .error e => .error e
          | .ok (lastName', parts') =>
            if part.header.is_extended ∧ part.header.image_list_end = 1 then
              .ok parts'
            else
              let offset' := part.endOffset
              if (¬ part.header.is_extended
                    ∨ ¬ isValidImageListEnd part.header.image_list_end)
                  ∧ isEndOfPartitions contents offset' then
                .ok parts'
              else parseLoop contents fuel offset' lastName' parts'
    else .ok parts

/-- `LkImage._parse_partitions`: run the loop from offset 0 with empty
    `last_name` and collection.  The fuel bound `length + 1` covers every
    run in which the offset strictly grows per iteration (each parsed
    partition occupies at least one byte); runs the Python loop would not
    finish end in the `outOfFuel` marker instead. -/
def parsePartitions (contents : List Nat) : Except PErr Parts :=
  parseLoop contents (contents.length + 1) 0 [] []

/-- `LkImage._detect_version`. -/
def detectVersion (ps : Parts) : Nat :=
  if hasKey ps [97, 101, 101] ∨ hasKey ps [98, 108, 50, 95, 101, 120, 116]
  then 2 else 1

/-- `LkImage` state: raw contents, ordered partitions, version tag. -/
structure LkImage where
  contents : List Nat
  partitions : Parts
  version : Nat
deriving Repr

/-- `LkImage.__init__` from a byte buffer: parse then classify. -/
def lkImageOfBytes (b : List Nat) : Except PErr LkImage :=
  match parsePartitions b with
  | .error e => .error e
  | .ok ps => .ok { contents := b, partitions := ps, version := detectVersion ps }

/-- The flag-normalization phase of `LkImage._rebuild_contents`: clear
    `image_list_end` on every partition and each of its certificates. -/
def clearListEnds (ps : Parts) : Parts :=
  ps.map (fun e =>
    (e.1, (e.2.setListEnd 0).setCerts (e.2.certs.map (·.setListEnd 0))))

/-- `image_list_end = 1` on the last certificate of the last partition if
    it has certificates, else on the last partition itself. -/
def setLastListEnd (ps : Parts) : Parts :=
  match ps.getLast? with
  | none => ps
  | some (k, p) =>
    let p' :=
      match p.certs.getLast? with
      | some lastCert =>
        p.setCerts (p.certs.dropLast ++ [lastCert.setListEnd 1])
      | none => p.setListEnd 1
    ps.dropLast ++ [(k, p')]

/-- The serialization phase of `LkImage._rebuild_contents`: for each
    partition append its byte block and record
    `end_offset = len(new_contents) + len(partition_bytes)`. -/
def serializeParts : Parts → List Nat → Except PErr (Parts × List Nat)
  | [], acc => .ok ([], acc)
  | (k, p) :: rest, acc =>
    match partitionBytesE p with
    | .error e => .error e
    | .ok b =>
      let p' := p.setEndOffset (acc.length + b.length)
      match serializeParts rest (acc ++ b) with
      | .error e => .error e
      | .ok (rest', acc') => .ok ((k, p') :: rest', acc')

/-- `LkImage._rebuild_contents`: empty collection clears the contents;
    otherwise normalize the list-end flags and serialize every partition
    in order, returning the updated partitions and the new contents. -/
def rebuildContents (ps : Parts) : Except PErr (Parts × List Nat) :=
  if ps.isEmpty then .ok (ps, [])
  else serializeParts (setLastListEnd (clearListEnds ps)) []

/-- Python's `list.insert(position, item)` (clamping an out-of-range
    position the way Python does). -/
def insertAt (ps : Parts) (pos : Nat) (e : List Nat × LkPartition) : Parts :=
  ps.take pos ++ [e] ++ ps.drop pos

/-- ctypes `c_char * 32` assignment through the `name` setter: reject a
    value longer than 32 bytes (`ValueError('Name too long')`), reject
    non-ASCII bytes (`str.encode('ascii')`), and NUL-fill the remainder of
    the freshly zeroed 32-byte field. -/
def encodeCName (name : List Nat) : Except PErr (List Nat) :=
  if name.length > 32 then .error .valueError
  else if ¬ name.all (· < 128) then .error .valueError
  else .ok (name ++ List.replicate (32 - name.length) 0)

/-- A freshly constructed `ImageHeader()` (ctypes zero-initializes). -/
def emptyHeader : ImageHeader :=
  { magic := 0, dsize := 0, cname := List.replicate 32 0, maddr := 0
    mode := 0, ext_magic := 0, hdr_size := 0, hdr_version := 0
    image_type := { tid := 0, reserved0 := 0, reserved1 := 0, group := 0 }
    image_list_end := 0, alignment := 0, dsize_extend := 0, maddr_extend := 0
    padding := List.replicate 432 0 }

/-- `ImageType` for `GROUP_AP`/`AP_BIN` as built in `_create_header`. -/
def apBinImageType : ImageType :=
  { tid := 0, reserved0 := 0, reserved1 := 0, group := 0 }

/-- `LkImage._create_header`: reject names longer than 32 bytes, auto-select
    the extended format when unspecified and the size or address exceeds
    32 bits, then assign the fields in source order on a fresh header.
    Note the source assigns `data_size`/`memory_address` before `ext_magic`,
    so these setters run in legacy (32-bit truncating) mode. -/
def createHeader (name : List Nat) (dataSize : Nat) (memoryAddress : Nat := 0)
    (mode : Nat := 0) (imageType : Option ImageType := none)
    (useExtended : Option Bool := none) (alignment : Nat := 8) :
    Except PErr ImageHeader :=
  if name.length > 32 then .error .valueError
  else
    let useExt := useExtended.getD
      (dataSize > 0xFFFFFFFF ∨ memoryAddress > 0xFFFFFFFF)
    match encodeCName name with
    | .error e => .error e
    | .ok cn =>
      let h := { emptyHeader with magic := MAGIC % 2 ^ 32, cname := cn }
      let h := h.setDataSize dataSize
      let h := h.setMemoryAddress memoryAddress
      let h := { h with mode := mode % 2 ^ 32, image_list_end := 0 }
      let h :=
        if useExt then
          { h with ext_magic := EXT_MAGIC % 2 ^ 32, hdr_size := 512
                   hdr_version := 1, alignment := alignment % 2 ^ 32 }
        else
          { h with ext_magic := 0, hdr_size := 0, hdr_version := 0
                   alignment := 0 }
      .ok { h with image_type := imageType.getD apBinImageType }

/-- `LkImage.add_partition`: reject an existing name, build the header and
    partition, insert at `position` or append, then rebuild the contents. -/
def addPartition (img : LkImage) (name : List Nat) (data : List Nat)
    (memoryAddress : Nat := 0) (mode : Nat := 0)
    (imageType : Option ImageType := none) (useExtended : Option Bool := none)
    (alignment : Nat := 8) (position : Option Nat := none) :
    Except PErr (LkImage × LkPartition) :=
  if hasKey img.partitions name then .error .valueError
  else
    match createHeader name data.length memoryAddress mode imageType
        useExtended alignment with
    | .error e => .error e
    | .ok header =>
      let partition : LkPartition := .mk header data 0 [] none
      let parts' :=
        match position with
        | none => img.partitions ++ [(name, partition)]
        | some pos => insertAt img.partitions pos (name, partition)
      match rebuildContents parts' with
      | .error e => .error e
      | .ok (parts'', contents') =>
        .ok ({ img with partitions := parts'', contents := contents' },
             partition)

/-- `LkImage.remove_partition`: reject a missing name, delete the entry,
    then rebuild the contents. -/
def removePartition (img : LkImage) (name : List Nat) :
    Except PErr LkImage :=
  if ¬ hasKey img.partitions name then .error .keyError
  else
    let parts' := img.partitions.filter (fun e => e.1 ≠ name)
    match rebuildContents parts' with
    | .error e => .error e
    | .ok (parts'', contents') =>
      .ok { img with partitions := parts'', contents := contents' }

/-- `'cert1'` / `'cert2'` as ASCII bytes. -/
def cert1Name : List Nat := [99, 101, 114, 116, 49]

/-- `'cert2'` as ASCII bytes. -/
def cert2Name : List Nat := [99, 101, 114, 116, 50]

/-- `'_'` as an ASCII byte. -/
def underscoreByte : Nat := 95

/-- `LkPartition.add_certificate`: validate the type tag, name the
    certificate `cert_type` verbatim for an owner named `lk` and
    `f'{cert_type}_{base_name}'` otherwise, inherit the owner's extended
    format and alignment, and append it to the owner's certificate list
    (no rebuild here). -/
def addCertificate (p : LkPartition) (certData : List Nat)
    (certType : List Nat := cert1Name) (imageType : Option ImageType := none) :
    Except PErr (LkPartition × LkPartition) :=
  if certType ≠ cert1Name ∧ certType ≠ cert2Name then .error .valueError
  else
    let baseName := p.header.nameBytes
    let certName :=
      if baseName ≠ lkName then certType ++ [underscoreByte] ++ baseName
      else certType
    match encodeCName certName with
    | .error e => .error e
    | .ok cn =>
      let h := { emptyHeader with magic := p.header.magic % 2 ^ 32, cname := cn }
      let h := h.setDataSize certData.length
      let h := h.setMemoryAddress 0
      let h := { h with mode := 0, image_list_end := 0 }
      let h :=
        if p.header.is_extended then
          { h with ext_magic := p.header.ext_magic % 2 ^ 32, hdr_size := 512
                   hdr_version := 1, alignment := p.header.alignment % 2 ^ 32 }
        else
          { h with ext_magic := 0, hdr_size := 0, hdr_version := 0
                   alignment := 0 }
      let certImageType :=
        imageType.getD
          { tid := if certType = cert1Name then 0 else 2
            reserved0 := 0, reserved1 := 0, group := 2 }
      let h := { h with image_type := certImageType }
      let cert : LkPartition := .mk h certData 0 [] none
      .ok (p.setCerts (p.certs ++ [cert]), cert)

/-- `LkPartition.apply_patch` (needle and patch already as bytes): find the
    needle in the payload, splice in the patch (Python slice assignment
    `data[offset : offset + len(patch)] = patch`), and refresh
    `header.data_size` from the new payload length.  Raise
    `NeedleNotFoundException` (touching nothing) when absent. -/
def partApplyPatch (p : LkPartition) (needle patch : List Nat) :
    Except PErr LkPartition :=
  match findSub p.data needle with
  | some offset =>
    let newData := p.data.take offset ++ patch ++ p.data.drop (offset + patch.length)
    match p with
    | .mk h _ e cs a => .ok (.mk (h.setDataSize newData.length) newData e cs a)
  | none => .error .needleNotFound

/-- `self.partitions[partition] = value` style update of one entry. -/
def updatePart (ps : Parts) (k : List Nat) (p : LkPartition) : Parts :=
  ps.map (fun e => if e.1 == k then (e.1, p) else e)

/-- `LkImage.apply_patch`: with a partition name, patch that partition's
    payload and then rebuild the contents; with none, splice the patch over
    the first occurrence of the needle in the raw buffer.  The returned
    image on the error side is the state at raise time (the raw-buffer
    path raises before mutating; the partition path raises inside the
    partition patch before mutating). -/
def imgApplyPatch (img : LkImage) (needle patch : List Nat)
    (partition : Option (List Nat) := none) : Option PErr × LkImage :=
  match partition with
  | some name =>
    if ¬ hasKey img.partitions name then (some .keyError, img)
    else
      match (img.partitions.find? (fun e => e.1 == name)) with
      | none => (some .keyError, img)
      | some (_, p) =>
        match partApplyPatch p needle patch with
        | .error e => (some e, img)
        | .ok p' =>
          let parts' := updatePart img.partitions name p'
          match rebuildContents parts' with
          | .error e => (some e, { img with partitions := parts' })
          | .ok (parts'', contents') =>
            (none, { img with partitions := parts'', contents := contents' })
  | none =>
    match findSub img.contents needle with
    | some offset =>
      (none, { img with contents :=
        img.contents.take offset ++ patch ++
          img.contents.drop (offset + patch.length) })
    | none => (some .needleNotFound, img)

/-- An extended variant of the fresh header, for exercising both branches. -/
def extTestHeader : ImageHeader := { emptyHeader with ext_magic := EXT_MAGIC }

/-- A small concrete partition for the patch witnesses. -/
def patchTestHeader : ImageHeader :=
  { emptyHeader with magic := MAGIC, dsize := 3
                     cname := [112] ++ List.replicate 31 0 }

/-- Concrete partition named `p` with payload `[1, 2, 3]`. -/
def patchTestPart : LkPartition := .mk patchTestHeader [1, 2, 3] 0 [] none

/-- Concrete one-partition image used by the patch witnesses. -/
def patchTestImg : LkImage :=
  { contents := [], partitions := [([112], patchTestPart)], version := 1 }

/-- Projection of a partition collection to names and payloads. -/
def nameData (ps : Parts) : List (List Nat × List Nat) :=
  ps.map (fun e => (e.1, e.2.data))

/-- Header of the concrete partition used for the C3 counterexample. -/
def c3Hdr : ImageHeader :=
  { emptyHeader with magic := MAGIC, dsize := 8
                     cname := [112] ++ List.replicate 31 0
                     image_list_end := 1 }

/-- Concrete one-partition image (name `p`, payload `[1..8]`) whose
    contents equal its own rebuilt serialization. -/
def c3Img : LkImage :=
  { contents := headerBytes c3Hdr ++ [1, 2, 3, 4, 5, 6, 7, 8]
    partitions := [([112], .mk c3Hdr [1, 2, 3, 4, 5, 6, 7, 8] 520 [] none)]
    version := 1 }

/-- The `image_list_end` flags of one emitted unit group: the partition's
    own header followed by its certificates' headers. -/
def entryFlags (p : LkPartition) : List Nat :=
  p.header.image_list_end :: p.certs.map (fun c => c.header.image_list_end)

/-- The `image_list_end` flags of the full emitted unit sequence of a
    partition collection: partitions in order, each followed by its own
    certificates. -/
def listEndFlags (ps : Parts) : List Nat :=
  (ps.map (fun e => entryFlags e.2)).flatten

/-- Concrete single-partition collection for the C2 witness. -/
def c2TestParts : Parts :=
  [([112], .mk c3Hdr [1, 2, 3, 4, 5, 6, 7, 8] 0 [] none)]

/-- The partition collection after rebuilding `c2TestParts`. -/
def c2Rebuilt : Parts :=
  [([112], .mk { c3Hdr with image_list_end := 1 } [1, 2, 3, 4, 5, 6, 7, 8]
    520 [] none)]

mutual

/-- `header.data_size == len(data)` for the partition and, recursively,
    for each of its certificates (the condition under which
    `LkPartition.__bytes__` does not raise). -/
def sizesOk : LkPartition → Bool
  | .mk h d _ cs _ => (h.data_size == d.length) && sizesOkList cs

/-- `sizesOk` over a certificate list. -/
def sizesOkList : List LkPartition → Bool
  | [] => true
  | c :: cs => sizesOk c && sizesOkList cs

end

/-- The zero-padding length appended after the payload: alignment taken as
    8 for legacy headers, else the header's alignment field with 0 meaning
    no padding. -/
def padSize (h : ImageHeader) : Nat :=
  let alignment := if h.is_extended then h.alignment else 8
  if alignment ≠ 0 ∧ h.data_size % alignment ≠ 0 then
    alignment - h.data_size % alignment
  else 0

mutual

/-- The byte stream the spec describes for a size-consistent partition:
    header block, payload, zero padding to the alignment boundary, then
    each certificate's serialization in attachment order. -/
def serialSpec : LkPartition → List Nat
  | .mk h d _ cs _ =>
    headerBytes h ++ d ++ List.replicate (padSize h) 0 ++ serialSpecList cs

/-- Concatenated serializations of a certificate list. -/
def serialSpecList : List LkPartition → List Nat
  | [] => []
  | c :: cs => serialSpec c ++ serialSpecList cs

end

/-- Concrete partition with one certificate for the C10 witness. -/
def c10TestPart : LkPartition :=
  .mk patchTestHeader [1, 2, 3] 0
    [.mk { emptyHeader with magic := MAGIC, dsize := 2
                            cname := [99, 101, 114, 116, 49] ++
                              List.replicate 27 0 }
      [7, 8] 0 [] none] none

/-- Concrete `lk` header with the sentinel load address and a 16-byte
    payload. -/
def c6WitHdr : ImageHeader :=
  { emptyHeader with magic := MAGIC, dsize := 16
                     cname := [108, 107] ++ List.replicate 30 0
                     maddr := 0xFFFFFFFF }

/-- One-partition buffer whose payload holds the `LOADADDR` pattern at
    its start, with `0xDEADBEEF` stored 8 bytes after the match. -/
def c6WitContents : List Nat :=
  headerBytes c6WitHdr ++
    ([0x10, 0xFF, 0x2F, 0xE1] ++ [0, 0, 0, 0] ++
     [0xEF, 0xBE, 0xAD, 0xDE] ++ [0, 0, 0, 0])

/-- Legacy header of a first partition named `aa` whose payload will hold
    the `LOADADDR` pattern. -/
def c6HdrA : ImageHeader :=
  { emptyHeader with magic := MAGIC, dsize := 8
                     cname := [97, 97] ++ List.replicate 30 0 }

/-- Legacy `lk` header with the sentinel load address. -/
def c6HdrLk : ImageHeader :=
  { emptyHeader with magic := MAGIC, dsize := 8
                     cname := [108, 107] ++ List.replicate 30 0
                     maddr := 0xFFFFFFFF }

/-- Two-partition image: `aa` (payload contains the pattern at absolute
    offset 512), then `lk` (sentinel address, no pattern at or after its
    own offset 520). -/
def c6Contents : List Nat :=
  headerBytes c6HdrA ++ [0x10, 0xFF, 0x2F, 0xE1, 0, 0, 0, 0] ++
  headerBytes c6HdrLk ++ [0, 0, 0, 0, 0, 0, 0, 0]

/-- Field bounds under which a header survives the encode/decode
    round-trip (ctypes guarantees them for every reachable header). -/
def goodHeader (h : ImageHeader) : Prop :=
  h.cname.length = 32 ∧ h.padding.length = 432 ∧
  h.magic < 2 ^ 32 ∧ h.dsize < 2 ^ 32 ∧ h.maddr < 2 ^ 32 ∧ h.mode < 2 ^ 32 ∧
  h.ext_magic < 2 ^ 32 ∧ h.hdr_size < 2 ^ 32 ∧ h.hdr_version < 2 ^ 32 ∧
  h.image_list_end < 2 ^ 32 ∧ h.alignment < 2 ^ 32 ∧
  h.dsize_extend < 2 ^ 32 ∧ h.maddr_extend < 2 ^ 32 ∧
  h.image_type.tid < 256 ∧ h.image_type.reserved0 < 256 ∧
  h.image_type.reserved1 < 256 ∧ h.image_type.group < 256

/-- Zero padding after a payload of `n` bytes under 8-byte alignment. -/
def pad8 (n : Nat) : Nat := if n % 8 = 0 then 0 else 8 - n % 8

/-- Well-formedness of a legacy (non-extended) header/payload pair as
    emitted by the builders: valid magic, zeroed extension fields, payload
    length in the low size word, zero load address, decodable stored
    name. -/
def legacyShape (h : ImageHeader) (d : List Nat) : Prop :=
  goodHeader h ∧ h.magic = MAGIC ∧ h.ext_magic = 0 ∧ h.dsize = d.length ∧
  h.maddr = 0 ∧ (∀ b ∈ h.nameBytes, b < 128)

/-- One certificate to attach: its type tag (`cert1` vs `cert2`) and
    payload. -/
structure CertSpec where
  isCert1 : Bool
  cdata : List Nat

/-- One partition to add: name, payload, certificates. -/
structure PartSpec where
  pname : List Nat
  pdata : List Nat
  pcerts : List CertSpec

/-- The `cert_type` tag bytes. -/
def certTypeName (c : CertSpec) : List Nat :=
  if c.isCert1 then cert1Name else cert2Name

/-- `add_certificate`'s naming rule: the tag verbatim for an owner named
    `lk`, else `f'{cert_type}_{base_name}'`. -/
def certNameOf (ownerName : List Nat) (c : CertSpec) : List Nat :=
  if ownerName ≠ lkName then certTypeName c ++ [underscoreByte] ++ ownerName
  else certTypeName c

/-- The header `add_partition` builds with default arguments (legacy
    format, zero address and mode, `AP_BIN` type). -/
def legacyHeader (nm : List Nat) (ds : Nat) : ImageHeader :=
  { magic := MAGIC, dsize := ds % 2 ^ 32
    cname := nm ++ List.replicate (32 - nm.length) 0
    maddr := 0, mode := 0, ext_magic := 0, hdr_size := 0, hdr_version := 0
    image_type := apBinImageType, image_list_end := 0, alignment := 0
    dsize_extend := 0, maddr_extend := 0, padding := List.replicate 432 0 }

/-- The header `add_certificate` builds for a legacy owner. -/
def certHeader (ownerName : List Nat) (c : CertSpec) : ImageHeader :=
  { legacyHeader (certNameOf ownerName c) c.cdata.length with
    image_type := { tid := if c.isCert1 then 0 else 2
                    reserved0 := 0, reserved1 := 0, group := 2 } }

/-- The certificate partition `add_certificate` appends. -/
def builtCert (ownerName : List Nat) (c : CertSpec) : LkPartition :=
  .mk (certHeader ownerName c) c.cdata 0 [] none

/-- The partition `add_partition` inserts (before the rebuild), with its
    certificates attached by later `add_certificate` calls. -/
def builtPartition (s : PartSpec) : LkPartition :=
  .mk (legacyHeader s.pname s.pdata.length) s.pdata 0
    (s.pcerts.map (builtCert s.pname)) none

/-- The ordered collection built from a list of specifications. -/
def builtParts (specs : List PartSpec) : Parts :=
  specs.map (fun s => (s.pname, builtPartition s))

/-- A usable partition name: at most 32 bytes, ASCII, NUL-free, and not
    `cert`-prefixed (a `cert` prefix would make the re-parser treat the
    partition as a certificate). -/
def nameOK (nm : List Nat) : Prop :=
  nm.length ≤ 32 ∧ (∀ b ∈ nm, 0 < b ∧ b < 128) ∧ ¬ certPrefix.isPrefixOf nm

/-- A buildable certificate for owner `k`. -/
def certOK (k : List Nat) (c : CertSpec) : Prop :=
  (certNameOf k c).length ≤ 32 ∧ c.cdata.length < 2 ^ 32

/-- A buildable partition specification. -/
def specOK (s : PartSpec) : Prop :=
  nameOK s.pname ∧ s.pdata.length < 2 ^ 32 ∧ ∀ c ∈ s.pcerts, certOK s.pname c

/-- The certificate lists that the rebuild phases can produce from the
    built state: each certificate is the built one up to its
    `image_list_end` flag. -/
def wfCerts (k : List Nat) : List LkPartition → List CertSpec → Prop
  | [], [] => True
  | cq :: cqs, c :: cs =>
      (∃ flag, flag < 2 ^ 32 ∧
        cq = .mk { certHeader k c with image_list_end := flag }
          c.cdata 0 [] none) ∧
      wfCerts k cqs cs
  | _, _ => False

/-- The partition collections that the rebuild phases can produce from the
    built state: each entry is the built one up to `image_list_end` flags
    and its `end_offset`. -/
def wfParts : Parts → List PartSpec → Prop
  | [], [] => True
  | (key, p) :: qs, s :: ss =>
      key = s.pname ∧
      (∃ flag eo certsQ, flag < 2 ^ 32 ∧
        p = .mk { legacyHeader s.pname s.pdata.length with
                   image_list_end := flag } s.pdata eo certsQ none ∧
        wfCerts s.pname certsQ s.pcerts) ∧
      wfParts qs ss
  | _, _ => False

/-- Name and payload of a certificate partition. -/
def projCert (c : LkPartition) : List Nat × List Nat :=
  (c.header.nameBytes, c.data)

/-- Names, payloads and certificate name/payload pairs of a collection. -/
def projParts (ps : Parts) :
    List (List Nat × List Nat × List (List Nat × List Nat)) :=
  ps.map (fun e => (e.1, e.2.data, e.2.certs.map projCert))

/-- What a specification should re-parse to. -/
def specProj (s : PartSpec) :
    List Nat × List Nat × List (List Nat × List Nat) :=
  (s.pname, s.pdata, s.pcerts.map (fun c => (certNameOf s.pname c, c.cdata)))

/-- The byte stream a partition collection serializes to (the contents
    `_rebuild_contents` emits starting from an empty buffer). -/
def streamParts (qs : Parts) : List Nat :=
  (qs.map (fun e => serialSpec e.2)).flatten

/-- Number of units (partitions plus certificates) a specification list
    builds; each unit costs the parse loop one iteration. -/
def unitsCount (specs : List PartSpec) : Nat :=
  (specs.map (fun s => 1 + s.pcerts.length)).sum

/-- A byte stream that is either exhausted or positioned at another
    well-formed header with the partition magic. -/
def goodTail (tail : List Nat) : Prop :=
  tail = [] ∨ ∃ H X, tail = headerBytes H ++ X ∧ goodHeader H ∧
    H.magic = MAGIC

instance (nm : List Nat) : Decidable (nameOK nm) := by
  unfold nameOK
  infer_instance

instance (k : List Nat) (c : CertSpec) : Decidable (certOK k c) := by
  unfold certOK
  infer_instance

instance (s : PartSpec) : Decidable (specOK s) := by
  unfold specOK
  infer_instance

/-- A concrete buildable pair of specifications: an `lk` partition with a
    `cert1` certificate, and an empty partition `a`. -/
def c1WitSpecs : List PartSpec :=
  [{ pname := [108, 107], pdata := [1, 2, 3]
     pcerts := [{ isCert1 := true, cdata := [9] }] },
   { pname := [97], pdata := [], pcerts := [] }]

/-- `'certx'`: a partition name carrying the reserved `cert` prefix. -/
def certxName : List Nat := [99, 101, 114, 116, 120]

/-- The empty image the counterexample build starts from. -/
def c1CEImg : LkImage := { contents := [], partitions := [], version := 1 }

/-- The entry `find?` locates for the C3 witness. -/
def c3WitEntry : List Nat × LkPartition :=
  ([112], .mk c3Hdr [1, 2, 3, 4, 5, 6, 7, 8] 520 [] none)

/-- The patched partition of the C3 witness. -/
def c3WitP : LkPartition := .mk c3Hdr [9, 2, 3, 4, 5, 6, 7, 8] 520 [] none

/-- The rebuilt collection of the C3 witness. -/
def c3WitParts : Parts :=
  [([112], .mk c3Hdr [9, 2, 3, 4, 5, 6, 7, 8] 520 [] none)]

/-- The rebuilt contents of the C3 witness. -/
def c3WitContents : List Nat := headerBytes c3Hdr ++ [9, 2, 3, 4, 5, 6, 7, 8]

/-! ## Helper lemmas -/

/-- Composing disjoint high/low 32-bit words with shift-or is plain
    arithmetic. -/
theorem shiftLeft32_lor_eq (a b : Nat) (hb : b < 2 ^ 32) :
    (a <<< 32) ||| b = a * 2 ^ 32 + b := by
  rw [Nat.shiftLeft_eq, Nat.mul_comm]
  rw [← Nat.mul_add_lt_is_or]
  all_goals omega

theorem setDataSize_ext_magic (h : ImageHeader) (v : Nat) :
    (h.setDataSize v).ext_magic = h.ext_magic := by
  unfold ImageHeader.setDataSize
  split <;> rfl

theorem setMemoryAddress_ext_magic (h : ImageHeader) (v : Nat) :
    (h.setMemoryAddress v).ext_magic = h.ext_magic := by
  unfold ImageHeader.setMemoryAddress
  split <;> rfl

theorem is_extended_setDataSize (h : ImageHeader) (v : Nat) :
    (h.setDataSize v).is_extended = h.is_extended := by
  unfold ImageHeader.is_extended
  rw [setDataSize_ext_magic]

theorem is_extended_setMemoryAddress (h : ImageHeader) (v : Nat) :
    (h.setMemoryAddress v).is_extended = h.is_extended := by
  unfold ImageHeader.is_extended
  rw [setMemoryAddress_ext_magic]

/-! ## C9 — 32-bit truncation of legacy size/address fields -/

/-- C9: on a legacy (non-extended) header, storing `data_size = v` keeps
    only `v mod 2^32` and reading it back yields `v mod 2^32`; the same
    truncation applies to `memory_address`.  On an extended header both
    round-trip modulo 2^64 (split into low and high 32-bit words), so only
    extended headers preserve values above `0xFFFFFFFF` (below 2^64). -/
theorem c9_legacy_truncation (h : ImageHeader) (v : Nat) :
    (h.is_extended = false →
      (h.setDataSize v).data_size = v % 2 ^ 32 ∧
      (h.setMemoryAddress v).memory_address = v % 2 ^ 32) ∧
    (h.is_extended = true →
      (h.setDataSize v).data_size = v % 2 ^ 64 ∧
      (h.setMemoryAddress v).memory_address = v % 2 ^ 64) := by
  constructor
  · intro hext
    constructor
    · unfold ImageHeader.data_size
      rw [is_extended_setDataSize, hext]
      simp only [Bool.false_eq_true, if_false]
      unfold ImageHeader.setDataSize
      rw [ImageHeader.is_extended, hext] at *
      simp [ImageHeader.is_extended] at hext
      simp [ImageHeader.is_extended, hext]
    · unfold ImageHeader.memory_address
      rw [is_extended_setMemoryAddress, hext]
      simp only [Bool.false_eq_true, if_false]
      unfold ImageHeader.setMemoryAddress
      simp [ImageHeader.is_extended] at hext
      simp [ImageHeader.is_extended, hext]
  · intro hext
    constructor
    · unfold ImageHeader.data_size
      rw [is_extended_setDataSize, hext]
      simp only [if_true]
      unfold ImageHeader.setDataSize
      rw [hext]
      simp only [if_true]
      rw [shiftLeft32_lor_eq _ _ (Nat.mod_lt _ (by norm_num))]
      omega
    · unfold ImageHeader.memory_address
      rw [is_extended_setMemoryAddress, hext]
      simp only [if_true]
      unfold ImageHeader.setMemoryAddress
      rw [hext]
      simp only [if_true]
      rw [shiftLeft32_lor_eq _ _ (Nat.mod_lt _ (by norm_num))]
      omega

theorem c9_witness :
    emptyHeader.is_extended = false ∧
    (emptyHeader.setDataSize 12884901895).data_size = 7 ∧
    extTestHeader.is_extended = true ∧
    (extTestHeader.setDataSize 12884901895).data_size = 12884901895 := by
  refine ⟨by decide, ?_, by decide, ?_⟩
  · have := ((c9_legacy_truncation emptyHeader 12884901895).1 (by decide)).1
    simpa using this
  · have := ((c9_legacy_truncation extTestHeader 12884901895).2 (by decide)).1
    simpa using this

/-! ## C7 — auto-selection of the extended header format -/

/-- C7: `add_partition`'s header construction auto-selects the extended
    format, when the flag is unspecified, exactly when the data length or
    the memory address exceeds `0xFFFFFFFF`; an explicit flag is used as
    given.  (`add_partition` passes `data_size = len(data)`.) -/
theorem c7_auto_extended (name : List Nat) (ds ma mo al : Nat)
    (it : Option ImageType) (hlen : name.length ≤ 32)
    (hascii : name.all (· < 128)) :
    (∀ hdr, createHeader name ds ma mo it none al = .ok hdr →
       (hdr.is_extended = true ↔ (ds > 0xFFFFFFFF ∨ ma > 0xFFFFFFFF))) ∧
    (createHeader name ds ma mo it none al).isOk = true ∧
    (∀ (b : Bool) hdr, createHeader name ds ma mo it (some b) al = .ok hdr →
       hdr.is_extended = b) := by
  have hname : ¬ name.length > 32 := by omega
  have henc : encodeCName name =
      .ok (name ++ List.replicate (32 - name.length) 0) := by
    unfold encodeCName
    simp [hname, hascii]
  refine ⟨?_, ?_, ?_⟩
  · intro hdr heq
    unfold createHeader at heq
    rw [henc] at heq
    simp only [hname, if_false] at heq
    rw [Except.ok.injEq] at heq
    subst heq
    unfold ImageHeader.is_extended
    by_cases hsel : ds > 0xFFFFFFFF ∨ ma > 0xFFFFFFFF
    · simp [hsel, setDataSize_ext_magic, setMemoryAddress_ext_magic, EXT_MAGIC]
    · simp [hsel, setDataSize_ext_magic, setMemoryAddress_ext_magic, EXT_MAGIC]
  · unfold createHeader
    rw [henc]
    simp only [hname, if_false]
    rfl
  · intro b hdr heq
    unfold createHeader at heq
    rw [henc] at heq
    simp only [hname, if_false] at heq
    rw [Except.ok.injEq] at heq
    subst heq
    unfold ImageHeader.is_extended
    cases b <;>
      simp [setDataSize_ext_magic, setMemoryAddress_ext_magic, EXT_MAGIC]

theorem c7_witness :
    ([97, 97] : List Nat).length ≤ 32 ∧
    (([97, 97] : List Nat).all (· < 128)) = true ∧
    (∀ hdr, createHeader [97, 97] 8 0 0 none none 8 = .ok hdr →
       (hdr.is_extended = true ↔
         ((8 : Nat) > 0xFFFFFFFF ∨ (0 : Nat) > 0xFFFFFFFF))) := by
  exact ⟨by decide, by decide,
    (c7_auto_extended [97, 97] 8 0 0 8 none (by decide) (by decide)).1⟩

/-! ## C5 — a missing needle raises NeedleNotFound without mutation -/

/-- C5: when the needle has no occurrence in the named partition's payload
    (`bytes.find` reports no index), the partition-targeted `apply_patch`
    raises `NeedleNotFoundException` and returns the image exactly as it
    was: the partition's payload bytes and its header's `data_size` are
    untouched. -/
theorem c5_needle_not_found (img : LkImage) (name needle patch : List Nat)
    (entry : List Nat × LkPartition)
    (hfind : img.partitions.find? (fun e => e.1 == name) = some entry)
    (habsent : findSub entry.2.data needle = none) :
    imgApplyPatch img needle patch (some name) = (some .needleNotFound, img) := by
  have hmem := List.mem_of_find?_eq_some hfind
  have hpred := List.find?_some hfind
  have hkey : hasKey img.partitions name = true := by
    unfold hasKey
    rw [List.any_eq_true]
    exact ⟨entry, hmem, hpred⟩
  obtain ⟨k, p⟩ := entry
  have hpatch : partApplyPatch p needle patch = .error .needleNotFound := by
    unfold partApplyPatch
    rw [habsent]
  simp only [imgApplyPatch, hkey, hfind, hpatch, Bool.not_true,
    Bool.false_eq_true, not_true, if_false]

theorem c5_witness :
    patchTestImg.partitions.find? (fun e => e.1 == [112]) =
      some ([112], patchTestPart) ∧
    findSub patchTestPart.data [9, 9] = none ∧
    imgApplyPatch patchTestImg [9, 9] [5] (some [112]) =
      (some .needleNotFound, patchTestImg) := by
  refine ⟨rfl, by decide, ?_⟩
  exact c5_needle_not_found patchTestImg [112] [9, 9] [5]
    ([112], patchTestPart) rfl (by decide)

/-! ## C8 — patches overwrite exactly the patch window -/
theorem findSub_le_length (buf needle : List Nat) (i : Nat)
    (h : findSub buf needle = some i) : i + needle.length ≤ buf.length := by
  induction buf generalizing i with
  | nil =>
    unfold findSub at h
    rcases needle with _ | ⟨b, t⟩
    · simp_all
    · simp [List.isPrefixOf] at h
  | cons hd tl ih =>
    unfold findSub at h
    by_cases hp : needle.isPrefixOf (hd :: tl)
    · rw [if_pos hp] at h
      cases h
      have hpre := List.isPrefixOf_iff_prefix.mp hp
      have := hpre.length_le
      simpa using this
    · rw [if_neg hp] at h
      rcases Option.map_eq_some'.mp h with ⟨j, hj, rfl⟩
      have := ih j hj
      simp only [List.length_cons]
      omega

theorem splice_length (buf patch : List Nat) (o : Nat)
    (h : o + patch.length ≤ buf.length) :
    (buf.take o ++ patch ++ buf.drop (o + patch.length)).length =
      buf.length := by
  simp only [List.length_append, List.length_take, List.length_drop]
  omega

theorem splice_take (buf patch : List Nat) (o : Nat)
    (h : o + patch.length ≤ buf.length) :
    (buf.take o ++ patch ++ buf.drop (o + patch.length)).take o =
      buf.take o := by
  have h1 : (buf.take o).length = o := by
    rw [List.length_take]
    omega
  rw [List.append_assoc, List.take_left' h1]

theorem splice_mid (buf patch : List Nat) (o : Nat)
    (h : o + patch.length ≤ buf.length) :
    ((buf.take o ++ patch ++ buf.drop (o + patch.length)).drop o).take
      patch.length = patch := by
  have h1 : (buf.take o).length = o := by
    rw [List.length_take]
    omega
  rw [List.append_assoc, List.drop_left' h1, List.take_left' rfl]

theorem splice_drop (buf patch : List Nat) (o : Nat)
    (h : o + patch.length ≤ buf.length) :
    (buf.take o ++ patch ++ buf.drop (o + patch.length)).drop
      (o + patch.length) = buf.drop (o + patch.length) := by
  have h1 : (buf.take o ++ patch).length = o + patch.length := by
    simp only [List.length_append, List.length_take]
    omega
  rw [List.drop_left' h1]

/-- C8 (amended): when the needle occurs at offset `o` and the patch fits
    inside the buffer (`o + len(patch) ≤ len(buffer)`), `apply_patch`
    overwrites exactly `len(patch)` bytes at `o` and preserves the total
    length, for both the whole-image path and the partition path; in the
    partition path the refreshed `data_size` then equals its old value.
    (When the patch overruns the end of the buffer the buffer grows
    instead — see the counterexample.) -/
theorem c8_patch_window (img : LkImage) (p : LkPartition)
    (needle patch : List Nat) (oi op : Nat)
    (hoi : findSub img.contents needle = some oi)
    (hfits : oi + patch.length ≤ img.contents.length)
    (hop : findSub p.data needle = some op)
    (hpfits : op + patch.length ≤ p.data.length)
    (hsync : p.header.data_size = p.data.length)
    (hsmall : p.data.length < 2 ^ 32) :
    (∃ img', imgApplyPatch img needle patch none = (none, img') ∧
       img'.partitions = img.partitions ∧
       img'.contents.length = img.contents.length ∧
       img'.contents.take oi = img.contents.take oi ∧
       (img'.contents.drop oi).take patch.length = patch ∧
       img'.contents.drop (oi + patch.length) =
         img.contents.drop (oi + patch.length)) ∧
    (∃ p', partApplyPatch p needle patch = .ok p' ∧
       p'.data.length = p.data.length ∧
       p'.data.take op = p.data.take op ∧
       (p'.data.drop op).take patch.length = patch ∧
       p'.data.drop (op + patch.length) = p.data.drop (op + patch.length) ∧
       p'.header.data_size = p.header.data_size) := by
  constructor
  · refine ⟨{ img with contents := img.contents.take oi ++ patch ++
        img.contents.drop (oi + patch.length) }, ?_, rfl, ?_, ?_, ?_, ?_⟩
    · simp only [imgApplyPatch, hoi]
    · exact splice_length img.contents patch oi hfits
    · exact splice_take img.contents patch oi hfits
    · exact splice_mid img.contents patch oi hfits
    · exact splice_drop img.contents patch oi hfits
  · obtain ⟨h, d, e, cs, a⟩ := p
    simp only [LkPartition.data] at hop hpfits hsmall
    simp only [LkPartition.header] at hsync
    have hnewlen :
        (d.take op ++ patch ++ d.drop (op + patch.length)).length = d.length :=
      splice_length d patch op hpfits
    refine ⟨.mk (h.setDataSize
        (d.take op ++ patch ++ d.drop (op + patch.length)).length)
        (d.take op ++ patch ++ d.drop (op + patch.length)) e cs a,
      ?_, ?_, ?_, ?_, ?_, ?_⟩
    · simp only [partApplyPatch, LkPartition.data, hop]
    · simpa [LkPartition.data] using hnewlen
    · exact splice_take d patch op hpfits
    · exact splice_mid d patch op hpfits
    · exact splice_drop d patch op hpfits
    · show (h.setDataSize _).data_size = (LkPartition.mk h d e cs a).header.data_size
      simp only [LkPartition.data] at hsync
      simp only [LkPartition.header]
      rw [hnewlen]
      have hds := c9_legacy_truncation h d.length
      rcases hext : h.is_extended with _ | _
      · rw [(hds.1 hext).1, hsync]
        omega
      · rw [(hds.2 hext).1, hsync]
        omega

theorem c8_witness :
    findSub [1, 2, 3] [2] = some 1 ∧ (1 + 2 ≤ 3) ∧
    (∃ img', imgApplyPatch
        { contents := [1, 2, 3], partitions := [], version := 1 }
        [2] [7, 8] none = (none, img') ∧
      img'.partitions = ([] : Parts) ∧
      img'.contents.length = 3 ∧
      img'.contents.take 1 = [1] ∧
      (img'.contents.drop 1).take 2 = [7, 8] ∧
      img'.contents.drop 3 = []) := by
  refine ⟨by decide, by decide, ?_⟩
  have := (c8_patch_window
    { contents := [1, 2, 3], partitions := [], version := 1 }
    patchTestPart [2] [7, 8] 1 1 (by decide) (by decide) (by decide)
    (by decide) (by decide) (by decide)).1
  simpa using this

/-- C8 as stated is false when the patch overruns the end of the payload:
    with payload `[1, 2]`, needle `[2]` (found at offset 1) and patch
    `[3, 4]`, Python's slice assignment grows the payload to `[1, 3, 4]`
    (length 3 ≠ 2), and the refreshed `data_size` becomes 3 ≠ 2 — so a
    partition-targeted patch can change both the payload length and
    `data_size`. -/
theorem c8_counterexample :
    partApplyPatch
        (.mk { emptyHeader with magic := MAGIC, dsize := 2
                                cname := [112] ++ List.replicate 31 0 }
          [1, 2] 0 [] none) [2] [3, 4] =
      .ok (.mk { emptyHeader with magic := MAGIC, dsize := 3
                                  cname := [112] ++ List.replicate 31 0 }
        [1, 3, 4] 0 [] none) ∧
    ([1, 3, 4] : List Nat).length ≠ ([1, 2] : List Nat).length ∧
    (3 : Nat) ≠ 2 := by
  refine ⟨?_, by decide, by decide⟩
  rfl
/-! ## Rebuild-phase preservation lemmas -/

theorem serializeParts_proj {α : Type} (f : LkPartition → α)
    (hf : ∀ p v, f (p.setEndOffset v) = f p) :
    ∀ (ps : Parts) (acc : List Nat) (ps' : Parts) (c : List Nat),
      serializeParts ps acc = .ok (ps', c) →
      ps'.map (fun e => (e.1, f e.2)) = ps.map (fun e => (e.1, f e.2)) := by
  intro ps
  induction ps with
  | nil =>
    intro acc ps' c h
    unfold serializeParts at h
    cases h
    rfl
  | cons hd tl ih =>
    intro acc ps' c h
    obtain ⟨k, p⟩ := hd
    unfold serializeParts at h
    rcases hb : partitionBytesE p with _ | b
    · rw [hb] at h
      cases h
    · rw [hb] at h
      simp only at h
      rcases hr : serializeParts tl (acc ++ b) with _ | ⟨rest', acc'⟩
      · rw [hr] at h
        cases h
      · rw [hr] at h
        simp only at h
        cases h
        simp only [List.map_cons, hf]
        rw [ih _ _ _ hr]

theorem setEndOffset_data (p : LkPartition) (v : Nat) :
    (p.setEndOffset v).data = p.data := by
  cases p
  rfl

theorem setEndOffset_header (p : LkPartition) (v : Nat) :
    (p.setEndOffset v).header = p.header := by
  cases p
  rfl

theorem setEndOffset_certs (p : LkPartition) (v : Nat) :
    (p.setEndOffset v).certs = p.certs := by
  cases p
  rfl

theorem setListEnd_data (p : LkPartition) (v : Nat) :
    (p.setListEnd v).data = p.data := by
  cases p
  rfl

theorem setCerts_data (p : LkPartition) (cs : List LkPartition) :
    (p.setCerts cs).data = p.data := by
  cases p
  rfl

theorem nameData_clearListEnds (ps : Parts) :
    nameData (clearListEnds ps) = nameData ps := by
  unfold nameData clearListEnds
  rw [List.map_map]
  apply List.map_congr_left
  intro e _
  simp [Function.comp, setCerts_data, setListEnd_data]

theorem nameData_setLastListEnd (ps : Parts) :
    nameData (setLastListEnd ps) = nameData ps := by
  induction ps using List.reverseRecOn with
  | nil => rfl
  | append_singleton l e ih =>
    obtain ⟨k, p⟩ := e
    unfold setLastListEnd
    rw [List.getLast?_concat]
    simp only
    rw [List.dropLast_concat]
    unfold nameData
    rw [List.map_append, List.map_append]
    congr 1
    rcases hcs : p.certs.getLast? with _ | c
    · simp [setListEnd_data]
    · simp [setCerts_data]

theorem nameData_serialize (ps : Parts) (acc : List Nat) (ps' : Parts)
    (c : List Nat) (h : serializeParts ps acc = .ok (ps', c)) :
    nameData ps' = nameData ps :=
  serializeParts_proj LkPartition.data setEndOffset_data ps acc ps' c h

theorem nameData_rebuild (ps : Parts) (ps' : Parts) (c : List Nat)
    (h : rebuildContents ps = .ok (ps', c)) :
    nameData ps' = nameData ps := by
  unfold rebuildContents at h
  by_cases he : ps.isEmpty
  · rw [if_pos he] at h
    cases h
    rfl
  · rw [if_neg he] at h
    rw [nameData_serialize _ _ _ _ h, nameData_setLastListEnd,
      nameData_clearListEnds]

/-! ## C3 — a partition-targeted patch does trigger a rebuild -/

/-- C3 (amended): a successful partition-targeted `apply_patch` patches the
    named partition in isolation (every other entry keeps its payload) and
    then *does* automatically rebuild the image byte buffer — the rebuilt
    contents are installed on the returned image, so `add_partition`,
    `remove_partition` and the partition-targeted `apply_patch` all
    rebuild; the caller need not rebuild manually. -/
theorem c3_patch_triggers_rebuild (img : LkImage)
    (name needle patch : List Nat) (entry : List Nat × LkPartition)
    (p' : LkPartition) (parts'' : Parts) (contents' : List Nat)
    (hfind : img.partitions.find? (fun e => e.1 == name) = some entry)
    (hpatch : partApplyPatch entry.2 needle patch = .ok p')
    (hrebuild : rebuildContents (updatePart img.partitions name p') =
      .ok (parts'', contents')) :
    imgApplyPatch img needle patch (some name) =
      (none, { contents := contents', partitions := parts''
               version := img.version }) ∧
    nameData parts'' =
      img.partitions.map
        (fun e => if e.1 == name then (e.1, p'.data) else (e.1, e.2.data)) := by
  have hmem := List.mem_of_find?_eq_some hfind
  have hpred := List.find?_some hfind
  have hkey : hasKey img.partitions name = true := by
    unfold hasKey
    rw [List.any_eq_true]
    exact ⟨entry, hmem, hpred⟩
  obtain ⟨k, p⟩ := entry
  constructor
  · simp only [imgApplyPatch, hkey, hfind, hpatch, hrebuild, Bool.not_true,
      Bool.false_eq_true, not_true, if_false]
  · rw [nameData_rebuild _ _ _ hrebuild]
    unfold nameData updatePart
    rw [List.map_map]
    apply List.map_congr_left
    intro e _
    by_cases hk : e.1 == name
    · simp [Function.comp, hk]
    · simp [Function.comp, hk]

set_option maxRecDepth 16384 in
/-- C3 as stated is false: a partition-targeted `apply_patch` *does*
    rebuild the image byte buffer.  On a concrete one-partition image,
    patching `[1] -> [9]` inside partition `p` succeeds and the image's
    byte buffer changes (it becomes the rebuilt serialization containing
    the patched payload), contradicting "does not rebuild the image byte
    buffer / the caller must invoke rebuild themselves". -/
theorem c3_counterexample :
    (imgApplyPatch c3Img [1] [9] (some [112])).1 = none ∧
    (imgApplyPatch c3Img [1] [9] (some [112])).2.contents =
      headerBytes c3Hdr ++ [9, 2, 3, 4, 5, 6, 7, 8] ∧
    (imgApplyPatch c3Img [1] [9] (some [112])).2.contents ≠
      c3Img.contents := by
  refine ⟨by decide, by decide, by decide⟩

/-! ## C2 — exactly one image_list_end flag after a rebuild -/

theorem setListEnd_flag (p : LkPartition) (v : Nat) :
    (p.setListEnd v).header.image_list_end = v % 2 ^ 32 := by
  cases p
  rfl

theorem setListEnd_certs (p : LkPartition) (v : Nat) :
    (p.setListEnd v).certs = p.certs := by
  cases p
  rfl

theorem setCerts_header (p : LkPartition) (cs : List LkPartition) :
    (p.setCerts cs).header = p.header := by
  cases p
  rfl

theorem setCerts_certs (p : LkPartition) (cs : List LkPartition) :
    (p.setCerts cs).certs = cs := by
  cases p
  rfl

theorem entryFlags_cleared (p : LkPartition) :
    entryFlags ((p.setListEnd 0).setCerts (p.certs.map (·.setListEnd 0))) =
      List.replicate (1 + p.certs.length) 0 := by
  unfold entryFlags
  rw [setCerts_header, setCerts_certs, setListEnd_flag, Nat.zero_mod,
    List.map_map]
  have hrep : p.certs.map
      ((fun c => c.header.image_list_end) ∘ (·.setListEnd 0)) =
      List.replicate p.certs.length 0 := by
    rw [List.eq_replicate_iff]
    refine ⟨by simp, ?_⟩
    intro b hb
    simp only [List.mem_map, Function.comp] at hb
    obtain ⟨c, -, hc⟩ := hb
    rw [← hc, setListEnd_flag, Nat.zero_mod]
  rw [hrep, Nat.add_comm, List.replicate_succ]

theorem listEndFlags_clearListEnds (ps : Parts) :
    ∃ m, listEndFlags (clearListEnds ps) = List.replicate m 0 := by
  induction ps with
  | nil => exact ⟨0, rfl⟩
  | cons hd tl ih =>
    obtain ⟨m, hm⟩ := ih
    refine ⟨1 + hd.2.certs.length + m, ?_⟩
    unfold clearListEnds listEndFlags at *
    simp only [List.map_cons, List.flatten_cons]
    rw [hm, entryFlags_cleared]
    conv_rhs => rw [List.replicate_add]

theorem serialize_flags (ps : Parts) (acc : List Nat) (ps' : Parts)
    (c : List Nat) (h : serializeParts ps acc = .ok (ps', c)) :
    listEndFlags ps' = listEndFlags ps := by
  have hmap := serializeParts_proj entryFlags
    (fun p v => by cases p; rfl) ps acc ps' c h
  unfold listEndFlags
  have hmaps : ps'.map (fun e => entryFlags e.2) =
      ps.map (fun e => entryFlags e.2) := by
    have h1 := congrArg (List.map Prod.snd) hmap
    rw [List.map_map, List.map_map] at h1
    exact h1
  rw [hmaps]

theorem setLastListEnd_concat (l : Parts) (k : List Nat) (p : LkPartition) :
    setLastListEnd (l ++ [(k, p)]) =
      l ++ [(k, match p.certs.getLast? with
                | some c => p.setCerts (p.certs.dropLast ++ [c.setListEnd 1])
                | none => p.setListEnd 1)] := by
  unfold setLastListEnd
  rw [List.getLast?_concat, List.dropLast_concat]

theorem entryFlags_flag_last (p : LkPartition)
    (hflag : p.header.image_list_end = 0)
    (hcerts : ∀ c ∈ p.certs, c.header.image_list_end = 0) :
    ∃ j, entryFlags (match p.certs.getLast? with
      | some c => p.setCerts (p.certs.dropLast ++ [c.setListEnd 1])
      | none => p.setListEnd 1) = List.replicate j 0 ++ [1] := by
  have h1 : (1 : Nat) % 2 ^ 32 = 1 := Nat.mod_eq_of_lt (by norm_num)
  rcases hcs : p.certs.getLast? with _ | c
  · have hemp : p.certs = [] := List.getLast?_eq_none_iff.mp hcs
    refine ⟨0, ?_⟩
    unfold entryFlags
    rw [setListEnd_flag, setListEnd_certs, hemp, h1]
    rfl
  · refine ⟨1 + p.certs.dropLast.length, ?_⟩
    unfold entryFlags
    rw [setCerts_header, setCerts_certs, hflag, List.map_append]
    have hrep : p.certs.dropLast.map (fun c => c.header.image_list_end) =
        List.replicate p.certs.dropLast.length 0 := by
      rw [List.eq_replicate_iff]
      refine ⟨by simp, ?_⟩
      intro b hb
      simp only [List.mem_map] at hb
      obtain ⟨c', hc', rfl⟩ := hb
      exact hcerts c' ((List.dropLast_sublist _).mem hc')
    rw [hrep]
    simp only [List.map_cons, List.map_nil, setListEnd_flag, h1]
    rw [Nat.add_comm, List.replicate_succ, List.cons_append]

/-- C2 (amended): after a rebuild of a *nonempty* partition collection,
    the flag sequence of the emitted units (each partition followed by its
    certificates, in order) is all zeros followed by a single 1: exactly
    one unit — the last certificate of the last partition if it has
    certificates, else the last partition — carries `image_list_end = 1`
    and every other one carries 0.  (A rebuild of an empty collection
    emits no units at all — see the counterexample.) -/
theorem c2_exactly_one_list_end (ps parts'' : Parts) (contents'' : List Nat)
    (hne : ps.isEmpty = false)
    (h : rebuildContents ps = .ok (parts'', contents'')) :
    ∃ n, listEndFlags parts'' = List.replicate n 0 ++ [1] := by
  unfold rebuildContents at h
  rw [hne] at h
  simp only [Bool.false_eq_true, if_false] at h
  rw [serialize_flags _ _ _ _ h]
  rcases List.eq_nil_or_concat ps with rfl | ⟨l, e, rfl⟩
  · simp at hne
  · obtain ⟨k, p⟩ := e
    rw [List.concat_eq_append]
    have hcl : clearListEnds (l ++ [(k, p)]) = clearListEnds l ++
        [(k, (p.setListEnd 0).setCerts (p.certs.map (·.setListEnd 0)))] := by
      unfold clearListEnds
      rw [List.map_append]
      rfl
    rw [hcl, setLastListEnd_concat]
    obtain ⟨m, hm⟩ := listEndFlags_clearListEnds l
    obtain ⟨j, hj⟩ := entryFlags_flag_last
      ((p.setListEnd 0).setCerts (p.certs.map (·.setListEnd 0)))
      (by rw [setCerts_header, setListEnd_flag, Nat.zero_mod])
      (by
        rw [setCerts_certs]
        intro c hc
        simp only [List.mem_map] at hc
        obtain ⟨c0, -, rfl⟩ := hc
        rw [setListEnd_flag, Nat.zero_mod])
    refine ⟨m + j, ?_⟩
    unfold listEndFlags at *
    rw [List.map_append, List.flatten_append, hm]
    simp only [List.map_cons, List.map_nil, List.flatten_cons,
      List.flatten_nil, List.append_nil]
    rw [hj, List.replicate_add, List.append_assoc]

set_option maxRecDepth 16384 in
theorem c2_witness :
    c2TestParts.isEmpty = false ∧
    rebuildContents c2TestParts =
      .ok (c2Rebuilt,
        headerBytes { c3Hdr with image_list_end := 1 } ++
          [1, 2, 3, 4, 5, 6, 7, 8]) ∧
    ∃ n, listEndFlags c2Rebuilt = List.replicate n 0 ++ [1] := by
  refine ⟨rfl, rfl, ?_⟩
  exact c2_exactly_one_list_end c2TestParts c2Rebuilt
    (headerBytes { c3Hdr with image_list_end := 1 } ++
      [1, 2, 3, 4, 5, 6, 7, 8]) rfl (by rfl)

/-- C2 as stated is false for an image with 0 partitions: a rebuild of an
    empty collection clears the contents and emits no units, so no unit at
    all (rather than exactly one) carries `image_list_end = 1`. -/
theorem c2_counterexample :
    rebuildContents [] = .ok ([], []) ∧ listEndFlags [] = [] :=
  ⟨rfl, rfl⟩

/-! ## C10 — partition serialization and its size guard -/

mutual

theorem partitionBytesE_ok : ∀ (p : LkPartition), sizesOk p = true →
    partitionBytesE p = .ok (serialSpec p)
  | .mk h d e cs a, hok => by
    rw [sizesOk, Bool.and_eq_true] at hok
    obtain ⟨h1, h2⟩ := hok
    have heq : h.data_size = d.length := by simpa using h1
    rw [partitionBytesE, if_neg (by simp [heq]), certsBytesE_ok cs h2,
      serialSpec]
    rfl

theorem certsBytesE_ok : ∀ (cs : List LkPartition), sizesOkList cs = true →
    certsBytesE cs = .ok (serialSpecList cs)
  | [], _ => rfl
  | c :: cs, hok => by
    rw [sizesOkList, Bool.and_eq_true] at hok
    rw [certsBytesE, partitionBytesE_ok c hok.1, certsBytesE_ok cs hok.2,
      serialSpecList]

end

mutual

theorem partitionBytesE_err : ∀ (p : LkPartition), sizesOk p = false →
    partitionBytesE p = .error .valueError
  | .mk h d e cs a, hbad => by
    rw [sizesOk, Bool.and_eq_false_iff] at hbad
    rw [partitionBytesE]
    by_cases heq : h.data_size = d.length
    · rw [if_neg (by simp [heq])]
      have hcs : sizesOkList cs = false := by
        rcases hbad with hbad | hbad
        · exfalso
          simp [heq] at hbad
        · exact hbad
      rw [certsBytesE_err cs hcs]
    · rw [if_pos heq]

theorem certsBytesE_err : ∀ (cs : List LkPartition), sizesOkList cs = false →
    certsBytesE cs = .error .valueError
  | c :: cs, hbad => by
    rw [sizesOkList, Bool.and_eq_false_iff] at hbad
    rw [certsBytesE]
    rcases hc : sizesOk c with _ | _
    · rw [partitionBytesE_err c hc]
    · have hcs : sizesOkList cs = false := by
        rcases hbad with hbad | hbad
        · rw [hc] at hbad
          cases hbad
        · exact hbad
      rw [partitionBytesE_ok c hc, certsBytesE_err cs hcs]

end

/-- C10: `bytes(partition)` raises `ValueError` exactly when some
    `data_size` disagrees with its payload length (at the partition or,
    through the recursive certificate serialization, at a certificate);
    when every unit agrees, it returns the header block, then the payload,
    then zero padding to the alignment boundary (8 for legacy headers,
    else the header's alignment field, 0 meaning none), then each
    certificate's serialization in attachment order. -/
theorem c10_partition_bytes (p : LkPartition) :
    (sizesOk p = true → partitionBytesE p = .ok (serialSpec p)) ∧
    (sizesOk p = false → partitionBytesE p = .error .valueError) ∧
    (p.header.data_size ≠ p.data.length →
      partitionBytesE p = .error .valueError) := by
  refine ⟨partitionBytesE_ok p, partitionBytesE_err p, ?_⟩
  intro hne
  apply partitionBytesE_err
  cases p with
  | mk h d e cs a =>
    rw [sizesOk, Bool.and_eq_false_iff]
    left
    simpa using hne

theorem c10_witness :
    sizesOk c10TestPart = true ∧
    partitionBytesE c10TestPart = .ok (serialSpec c10TestPart) ∧
    sizesOk (.mk patchTestHeader [1, 2] 0 [] none) = false ∧
    partitionBytesE (.mk patchTestHeader [1, 2] 0 [] none) =
      .error .valueError := by
  refine ⟨by decide, (c10_partition_bytes c10TestPart).1 (by decide),
    by decide, (c10_partition_bytes _).2.1 (by decide)⟩

/-! ## C4 — tolerance for unparsable trailing data -/

/-- C4: when decoding the partition at the current offset raises
    `InvalidLkPartition`, the parse loop stops without propagating the
    error and keeps the partitions parsed so far if at least one partition
    was already parsed; with no partition parsed yet the error propagates,
    and in particular the whole image construction fails when the very
    first partition is undecodable. -/
theorem c4_parse_tolerance (contents : List Nat) (fuel offset : Nat)
    (lastName : List Nat) (parts : Parts) (e : PErr)
    (hofs : offset < contents.length)
    (hfail : fromBytes (contents.drop offset) offset = .error e) :
    (parts ≠ [] →
      parseLoop contents (fuel + 1) offset lastName parts = .ok parts) ∧
    (parts = [] →
      parseLoop contents (fuel + 1) offset lastName parts = .error e) ∧
    (parts = [] → offset = 0 → lkImageOfBytes contents = .error e) := by
  have hloop : ∀ f, parseLoop contents (f + 1) offset lastName parts =
      if offset < contents.length then
        (if ¬ parts.isEmpty ∧ lastName = lkName then .ok parts
         else if ¬ parts.isEmpty then .ok parts
         else .error e)
      else .ok parts := by
    intro f
    rw [parseLoop, hfail]
  refine ⟨?_, ?_, ?_⟩
  · intro hne
    have hemp : parts.isEmpty = false := by
      cases parts
      · exact absurd rfl hne
      · rfl
    rw [hloop fuel, if_pos hofs, hemp]
    by_cases hl : lastName = lkName
    · simp [hl]
    · simp [hl]
  · intro hemp
    subst hemp
    rw [hloop fuel, if_pos hofs]
    simp
  · intro hemp hzero
    subst hemp
    subst hzero
    unfold lkImageOfBytes parsePartitions
    have hx : parseLoop contents (contents.length + 1) 0 [] [] =
        .error e := by
      rw [parseLoop, hfail, if_pos hofs]
      simp
    rw [hx]

/-- A one-byte buffer: too short for any header, so the first decode
    fails. -/
theorem c4_witness :
    (0 : Nat) < ([0] : List Nat).length ∧
    fromBytes (List.drop 0 [0]) 0 = .error .invalidPartition ∧
    parseLoop [0] 1 0 [] [([112], patchTestPart)] =
      .ok [([112], patchTestPart)] ∧
    parseLoop [0] 1 0 [] [] = .error .invalidPartition ∧
    lkImageOfBytes [0] = .error .invalidPartition := by
  have h := c4_parse_tolerance [0] 0 0 [] [([112], patchTestPart)]
    .invalidPartition (by decide) rfl
  have h2 := c4_parse_tolerance [0] 0 0 [] [] .invalidPartition
    (by decide) rfl
  exact ⟨by decide, rfl, h.1 (by simp), h2.2.1 rfl, h2.2.2 rfl rfl⟩

/-! ## C6 — the lk load-address recovery heuristic -/

/-- C6 (amended): when the decoded partition is named `lk`
    (case-insensitively) and its stored load address has low 32 bits equal
    to `0xFFFFFFFF`, `from_bytes` searches *the byte buffer it was given* —
    at image level `self.contents[offset:]`, the image from the partition's
    own start offset to the end, not the entire image buffer — for the
    first occurrence of `10FF2FE1`; if found (with 4 readable bytes 8
    past the match), the resolved address is the 4 little-endian bytes 8
    bytes after the match start; if absent, the address stays the stored
    sentinel value. -/
theorem c6_lk_address_search (contents : List Nat) (offset : Nat)
    (hdr : ImageHeader) (nm : List Nat)
    (hnobf : contents.take 4 ≠ bfbfMarker)
    (hdec : headerFromBytes (contents.take 512) = .ok hdr)
    (hmagic : hdr.magic = MAGIC)
    (hname : decodeName hdr.cname = .ok nm)
    (hlk : lowerBytes nm = lkName)
    (hsent : hdr.memory_address % 2 ^ 32 = 0xFFFFFFFF) :
    (∀ i, findSub contents LOADADDR = some i →
       i + 8 + 4 ≤ contents.length →
       (fromBytes contents offset).map LkPartition.lkAddress =
         .ok (some (readLE32 contents (i + 8)))) ∧
    (findSub contents LOADADDR = none →
       (fromBytes contents offset).map LkPartition.lkAddress =
         .ok (some hdr.memory_address)) := by
  have hish : (¬ hdr.is_header) = False := by
    simp [ImageHeader.is_header, hmagic]
  constructor
  · intro i hfind hle
    simp only [fromBytes, if_neg hnobf, List.drop_zero, hdec, hish,
      if_false, hname, hlk, if_pos hsent, hfind, if_pos hle]
    rfl
  · intro hfind
    simp only [fromBytes, if_neg hnobf, List.drop_zero, hdec, hish,
      if_false, hname, hlk, if_pos hsent, hfind]
    rfl

set_option maxRecDepth 32768 in
theorem c6_witness :
    findSub c6WitContents LOADADDR = some 512 ∧
    readLE32 c6WitContents 520 = 0xDEADBEEF ∧
    (fromBytes c6WitContents 0).map LkPartition.lkAddress =
      .ok (some (readLE32 c6WitContents 520)) := by
  refine ⟨by decide, by decide, ?_⟩
  exact (c6_lk_address_search c6WitContents 0 c6WitHdr [108, 107]
      (by decide) rfl (by decide) rfl (by decide)
      (by decide)).1 512 (by decide) (by decide)

set_option maxRecDepth 65536 in
/-- C6 as stated is false: the pattern occurs in the image buffer (first
    occurrence at 512, inside the first partition's payload, with readable
    bytes 8 past it), so by the claim the `lk` load address should resolve
    to `readLE32` at 520 (= 0x58881688, the next header's magic); but the
    code searches only `contents[offset:]` — from `lk`'s own offset 520 on
    — finds nothing there, and leaves the sentinel `0xFFFFFFFF`. -/
theorem c6_counterexample :
    findSub c6Contents LOADADDR = some 512 ∧
    (512 + 8 + 4 ≤ c6Contents.length) ∧
    readLE32 c6Contents 520 = 0x58881688 ∧
    (0x58881688 : Nat) ≠ 0xFFFFFFFF ∧
    (match parsePartitions c6Contents with
     | .ok ps => ps.map (fun e => (e.1, e.2.lkAddress))
     | .error _ => []) =
      [([97, 97], none), ([108, 107], some 0xFFFFFFFF)] := by
  exact ⟨by decide, by decide, by decide, by decide, by decide⟩

/-! ## Header encode/decode round-trip (towards C1) -/

theorem le32_length (v : Nat) : (le32 v).length = 4 := rfl

theorem leVal_le32 (v : Nat) (h : v < 2 ^ 32) : leVal (le32 v) = v := by
  simp only [le32, leVal]
  omega

theorem readLE32_start (v : Nat) (h : v < 2 ^ 32) (rest : List Nat) :
    readLE32 (le32 v ++ rest) 0 = v := by
  unfold readLE32
  rw [List.drop_zero, List.take_left' (le32_length v)]
  exact leVal_le32 v h

theorem readLE32_skip (a rest : List Nat) (i : Nat) (h : a.length ≤ i) :
    readLE32 (a ++ rest) i = readLE32 rest (i - a.length) := by
  unfold readLE32
  congr 1
  rw [List.drop_append_eq_append_drop, List.drop_eq_nil_iff.mpr h,
    List.nil_append]

theorem readLE32_consN (a X : List Nat) (n i : Nat) (ha : a.length = n) :
    readLE32 (a ++ X) (n + i) = readLE32 X i := by
  rw [readLE32_skip a X (n + i) (by omega), ha]
  congr 1
  omega

theorem drop_consN (a X : List Nat) (n i : Nat) (ha : a.length = n) :
    (a ++ X).drop (n + i) = X.drop i := by
  rw [List.drop_append_eq_append_drop, List.drop_eq_nil_iff.mpr (by omega),
    List.nil_append, ha]
  congr 1
  omega

theorem readByte_skip (a X : List Nat) (i : Nat) (h : a.length ≤ i) :
    readByte (a ++ X) i = readByte X (i - a.length) := by
  unfold readByte
  rw [List.getD_eq_getElem?_getD, List.getD_eq_getElem?_getD,
    List.getElem?_append_right h]

theorem readByte_lit0 (b0 : Nat) (X : List Nat) :
    readByte (b0 :: X) 0 = b0 := rfl

theorem readByte_lit1 (b0 b1 : Nat) (X : List Nat) :
    readByte (b0 :: b1 :: X) 1 = b1 := rfl

theorem readByte_lit2 (b0 b1 b2 : Nat) (X : List Nat) :
    readByte (b0 :: b1 :: b2 :: X) 2 = b2 := rfl

theorem readByte_lit3 (b0 b1 b2 b3 : Nat) (X : List Nat) :
    readByte (b0 :: b1 :: b2 :: b3 :: X) 3 = b3 := rfl

theorem readLE32_cons_skip (b0 b1 b2 b3 : Nat) (X : List Nat) (i : Nat)
    (h : 4 ≤ i) :
    readLE32 (b0 :: b1 :: b2 :: b3 :: X) i = readLE32 X (i - 4) := by
  show readLE32 ([b0, b1, b2, b3] ++ X) i = _
  rw [readLE32_skip _ _ _ (by simpa using h)]
  congr 1

theorem drop_skip (a X : List Nat) (i : Nat) (h : a.length ≤ i) :
    (a ++ X).drop i = X.drop (i - a.length) := by
  rw [List.drop_append_eq_append_drop, List.drop_eq_nil_iff.mpr h,
    List.nil_append]

theorem headerBytes_length (h : ImageHeader) (hc : h.cname.length = 32)
    (hp : h.padding.length = 432) : (headerBytes h).length = 512 := by
  simp [headerBytes, le32, hc, hp]

/-- Decoding a 512-byte chunk sequence laid out like `headerBytes` yields
    the corresponding header record. -/
theorem headerFromBytes_chain
    (m ds ma mo em hs hv fl al de me t1 t2 t3 t4 : Nat) (cn pad : List Nat)
    (hm : m < 2 ^ 32) (hds : ds < 2 ^ 32) (hma : ma < 2 ^ 32)
    (hmo : mo < 2 ^ 32) (hem : em < 2 ^ 32) (hhs : hs < 2 ^ 32)
    (hhv : hv < 2 ^ 32) (hfl : fl < 2 ^ 32) (hal : al < 2 ^ 32)
    (hde : de < 2 ^ 32) (hme : me < 2 ^ 32)
    (hc : cn.length = 32) (hp : pad.length = 432) :
    headerFromBytes (le32 m ++ (le32 ds ++ (cn ++ (le32 ma ++ (le32 mo ++
      (le32 em ++ (le32 hs ++ (le32 hv ++ ([t1, t2, t3, t4] ++ (le32 fl ++
      (le32 al ++ (le32 de ++ (le32 me ++ pad))))))))))))) =
      .ok (ImageHeader.mk m ds cn ma mo em hs hv
        (ImageType.mk t1 t2 t3 t4) fl al de me pad) := by
  have hL : (le32 m ++ (le32 ds ++ (cn ++ (le32 ma ++ (le32 mo ++
      (le32 em ++ (le32 hs ++ (le32 hv ++ ([t1, t2, t3, t4] ++ (le32 fl ++
      (le32 al ++ (le32 de ++ (le32 me ++ pad))))))))))))).length = 512 := by
    simp [le32, hc, hp]
  unfold headerFromBytes
  rw [if_neg (by rw [hL]; omega)]
  simp (disch := first
      | omega
      | (simp only [le32_length, hc, hp, List.length_cons, List.length_nil,
          List.length_append]; omega))
    [readLE32_skip, readLE32_start, readByte_skip, drop_skip,
     le32_length, hc, hp, List.take_left', List.take_of_length_le,
     readByte_lit0, readByte_lit1, readByte_lit2, readByte_lit3,
     readLE32_cons_skip, -List.cons_append]

/-- Decoding the 512-byte encoding of a well-formed header yields the
    header back, whatever follows it (spec §8: header round-trip). -/
theorem headerFromBytes_headerBytes (h : ImageHeader) (hg : goodHeader h)
    (rest : List Nat) :
    headerFromBytes ((headerBytes h ++ rest).take 512) = .ok h := by
  obtain ⟨hc, hp, hm, hds, hma, hmo, hem, hhs, hhv, hfl, hal, hde, hme,
    ht1, ht2, ht3, ht4⟩ := hg
  rw [List.take_left' (headerBytes_length h hc hp)]
  obtain ⟨m, ds, cn, ma, mo, em, hs, hv, it, fl, al, de, me, pad⟩ := h
  obtain ⟨t1, t2, t3, t4⟩ := it
  have bm : m < 2 ^ 32 := hm
  have bds : ds < 2 ^ 32 := hds
  have bma : ma < 2 ^ 32 := hma
  have bmo : mo < 2 ^ 32 := hmo
  have bem : em < 2 ^ 32 := hem
  have bhs : hs < 2 ^ 32 := hhs
  have bhv : hv < 2 ^ 32 := hhv
  have bfl : fl < 2 ^ 32 := hfl
  have bal : al < 2 ^ 32 := hal
  have bde : de < 2 ^ 32 := hde
  have bme : me < 2 ^ 32 := hme
  have bt1 : t1 < 256 := ht1
  have bt2 : t2 < 256 := ht2
  have bt3 : t3 < 256 := ht3
  have bt4 : t4 < 256 := ht4
  have bc : cn.length = 32 := hc
  have bp : pad.length = 432 := hp
  have hchain : headerBytes (ImageHeader.mk m ds cn ma mo em hs hv
      (ImageType.mk t1 t2 t3 t4) fl al de me pad) =
      le32 m ++ (le32 ds ++ (cn ++ (le32 ma ++ (le32 mo ++ (le32 em ++
      (le32 hs ++ (le32 hv ++ ([t1 % 256, t2 % 256, t3 % 256, t4 % 256] ++
      (le32 fl ++ (le32 al ++ (le32 de ++ (le32 me ++ pad)))))))))))) := by
    simp [headerBytes, List.append_assoc]
  rw [hchain]
  rw [headerFromBytes_chain m ds ma mo em hs hv fl al de me (t1 % 256)
    (t2 % 256) (t3 % 256) (t4 % 256) cn pad bm bds bma bmo bem bhs bhv bfl
    bal bde bme bc bp]
  rw [Nat.mod_eq_of_lt bt1, Nat.mod_eq_of_lt bt2, Nat.mod_eq_of_lt bt3,
    Nat.mod_eq_of_lt bt4]

theorem take4_headerBytes (h : ImageHeader) (X : List Nat) :
    ((headerBytes h ++ X).take 4) = le32 h.magic := by
  unfold headerBytes
  simp only [List.append_assoc]
  rw [List.take_append_of_le_length (by simp [le32]),
    List.take_of_length_le (by simp [le32])]

theorem legacy_is_extended (h : ImageHeader) (hze : h.ext_magic = 0) :
    h.is_extended = false := by
  simp [ImageHeader.is_extended, hze, EXT_MAGIC]

/-- Decoding one legacy unit (header, payload, 8-alignment padding) at an
    8-aligned offset: the header round-trips, the payload is sliced back
    exactly, the end offset lands at the start of `rest`, and the `lk`
    address resolution degenerates to the stored (zero) address since the
    sentinel test fails. -/
theorem fromBytes_legacyUnit (h : ImageHeader) (d rest : List Nat)
    (offset : Nat) (hsh : legacyShape h d) (hoff : offset % 8 = 0) :
    fromBytes (headerBytes h ++ (d ++ (List.replicate (pad8 d.length) 0 ++
      rest))) offset =
      .ok (.mk h d (offset + 512 + d.length + pad8 d.length) []
        (if lowerBytes h.nameBytes = lkName then some h.memory_address
         else none)) := by
  obtain ⟨hg, hmag, hze, hdsz, hmad, hascii⟩ := hsh
  have hext := legacy_is_extended h hze
  have hlen512 : (headerBytes h).length = 512 :=
    headerBytes_length h hg.1 hg.2.1
  have hnobf : ¬ ((headerBytes h ++ (d ++ (List.replicate (pad8 d.length) 0
      ++ rest))).take 4 = bfbfMarker) := by
    rw [take4_headerBytes, hmag]
    decide
  have hdec := headerFromBytes_headerBytes h hg
    (d ++ (List.replicate (pad8 d.length) 0 ++ rest))
  have hih : (¬ h.is_header) = False := by
    simp [ImageHeader.is_header, hmag]
  have hsize : h.size = 512 := by
    rw [ImageHeader.size, hext]
    simp
  have hdata_size : h.data_size = d.length := by
    rw [ImageHeader.data_size, hext]
    simp [hdsz]
  have hdata : ((headerBytes h ++ (d ++ (List.replicate (pad8 d.length) 0 ++
      rest))).drop h.size).take h.data_size = d := by
    rw [hsize, hdata_size, List.drop_left' hlen512,
      List.take_left' rfl]
  have hcnd : (h.cname.takeWhile (· ≠ 0)).all (· < 128) = true := by
    rw [List.all_eq_true]
    intro b hb
    exact decide_eq_true (hascii b hb)
  have hname : decodeName h.cname = .ok h.nameBytes := by
    unfold decodeName
    rw [if_pos hcnd]
    rfl
  have hendoff :
      (if (if h.is_extended then h.alignment else 8) ≠ 0 ∧
          h.end_offset offset % (if h.is_extended then h.alignment else 8)
            ≠ 0 then
        h.end_offset offset +
          ((if h.is_extended then h.alignment else 8) -
            h.end_offset offset % (if h.is_extended then h.alignment else 8))
      else h.end_offset offset) =
      offset + 512 + d.length + pad8 d.length := by
    rw [hext]
    simp only [Bool.false_eq_true, if_false]
    rw [ImageHeader.end_offset, hsize, hdata_size]
    unfold pad8
    have : (offset + 512 + d.length) % 8 = d.length % 8 := by omega
    rw [this]
    by_cases hmod : d.length % 8 = 0
    · simp [hmod]
    · rw [if_pos ⟨by omega, hmod⟩, if_neg hmod]
  have hsent : ¬ (h.memory_address % 2 ^ 32 = 0xFFFFFFFF) := by
    rw [ImageHeader.memory_address, hext]
    simp [hmad]
  unfold fromBytes
  rw [if_neg hnobf]
  simp only [List.drop_zero]
  rw [hdec]
  simp only [hih, if_false, hname]
  rw [hdata, hendoff]
  by_cases hlk : lowerBytes h.nameBytes = lkName
  · rw [if_pos hlk, if_pos hlk, if_neg hsent]
  · rw [if_neg hlk, if_neg hlk]

/-! ## Build specifications for the round-trip claim (C1) -/

theorem takeWhile_append_zeros (nm : List Nat) (k : Nat)
    (h : ∀ b ∈ nm, b ≠ 0) :
    ((nm ++ List.replicate k 0).takeWhile (· ≠ 0)) = nm := by
  induction nm with
  | nil =>
    cases k with
    | zero => rfl
    | succ n => simp [List.replicate_succ, List.takeWhile_cons]
  | cons hd tl ih =>
    have hhd : hd ≠ 0 := h hd (by simp)
    simp only [List.cons_append, List.takeWhile_cons]
    rw [if_pos (by simpa using hhd)]
    rw [ih (fun b hb => h b (by simp [hb]))]

theorem nameBytes_padded (nm : List Nat)
    (hnz : ∀ b ∈ nm, b ≠ 0) :
    ((nm ++ List.replicate (32 - nm.length) 0).takeWhile (· ≠ 0)) = nm :=
  takeWhile_append_zeros nm _ hnz

theorem pad8_add (n : Nat) : (n + pad8 n) % 8 = 0 := by
  unfold pad8
  split <;> omega

theorem pad8_le (n : Nat) : pad8 n ≤ 8 := by
  unfold pad8
  split <;> omega

theorem padSize_legacy (h : ImageHeader) (hze : h.ext_magic = 0) :
    padSize h = pad8 h.data_size := by
  simp only [padSize, pad8, legacy_is_extended h hze, Bool.false_eq_true,
    if_false]
  by_cases hm : h.data_size % 8 = 0
  · simp [hm]
  · rw [if_pos ⟨by omega, hm⟩, if_neg hm]

theorem certTypeName_bytes (c : CertSpec) :
    ∀ b ∈ certTypeName c, 0 < b ∧ b < 128 := by
  unfold certTypeName
  split <;>
    (intro b hb
     simp [cert1Name, cert2Name] at hb
     rcases hb with rfl | rfl | rfl | rfl | rfl <;> norm_num)

theorem certNameOf_bytes (k : List Nat) (c : CertSpec)
    (hk : ∀ b ∈ k, 0 < b ∧ b < 128) :
    ∀ b ∈ certNameOf k c, 0 < b ∧ b < 128 := by
  intro b hb
  unfold certNameOf at hb
  split at hb
  · rcases List.mem_append.mp hb with hb' | hb'
    · rcases List.mem_append.mp hb' with hb'' | hb''
      · exact certTypeName_bytes c b hb''
      · simp [underscoreByte] at hb''
        subst hb''
        norm_num
    · exact hk b hb'
  · exact certTypeName_bytes c b hb

theorem certNameOf_length_ge (k : List Nat) (c : CertSpec) :
    5 ≤ (certNameOf k c).length := by
  unfold certNameOf certTypeName
  split <;> split <;> simp [cert1Name, cert2Name]

theorem certPrefix_certNameOf (k : List Nat) (c : CertSpec) :
    certPrefix.isPrefixOf (certNameOf k c) = true := by
  unfold certNameOf certTypeName certPrefix cert1Name cert2Name
  split <;> split <;> simp [List.isPrefixOf]

theorem lowerBytes_length (s : List Nat) :
    (lowerBytes s).length = s.length := by
  simp [lowerBytes]

theorem certNameOf_not_lk (k : List Nat) (c : CertSpec) :
    lowerBytes (certNameOf k c) ≠ lkName := by
  intro h
  have hlen := congrArg List.length h
  rw [lowerBytes_length] at hlen
  have h5 := certNameOf_length_ge k c
  simp [lkName] at hlen
  omega

theorem goodHeader_legacyIT (nm : List Nat) (ds flag : Nat) (it : ImageType)
    (hnm : nm.length ≤ 32) (hfl : flag < 2 ^ 32)
    (hit : it.tid < 256 ∧ it.reserved0 < 256 ∧ it.reserved1 < 256 ∧
      it.group < 256) :
    goodHeader { legacyHeader nm ds with
      image_type := it, image_list_end := flag } := by
  have hrec : ({ legacyHeader nm ds with
      image_type := it, image_list_end := flag } : ImageHeader) =
      ImageHeader.mk MAGIC (ds % 2 ^ 32)
        (nm ++ List.replicate (32 - nm.length) 0) 0 0 0 0 0 it flag 0 0 0
        (List.replicate 432 0) := rfl
  rw [hrec]
  unfold goodHeader
  refine ⟨?_, ?_, ?_, ?_, ?_, ?_, ?_, ?_, ?_, ?_, ?_, ?_, ?_, ?_, ?_, ?_, ?_⟩
  · show (nm ++ List.replicate (32 - nm.length) 0).length = 32
    rw [List.length_append, List.length_replicate]
    omega
  · show (List.replicate 432 (0 : Nat)).length = 432
    rw [List.length_replicate]
  · show MAGIC < 2 ^ 32
    norm_num [MAGIC]
  · show ds % 2 ^ 32 < 2 ^ 32
    omega
  · show (0 : Nat) < 2 ^ 32
    norm_num
  · show (0 : Nat) < 2 ^ 32
    norm_num
  · show (0 : Nat) < 2 ^ 32
    norm_num
  · show (0 : Nat) < 2 ^ 32
    norm_num
  · show (0 : Nat) < 2 ^ 32
    norm_num
  · exact hfl
  · show (0 : Nat) < 2 ^ 32
    norm_num
  · show (0 : Nat) < 2 ^ 32
    norm_num
  · show (0 : Nat) < 2 ^ 32
    norm_num
  · exact hit.1
  · exact hit.2.1
  · exact hit.2.2.1
  · exact hit.2.2.2

theorem goodHeader_ownerFlag (nm : List Nat) (ds flag : Nat)
    (hnm : nm.length ≤ 32) (hfl : flag < 2 ^ 32) :
    goodHeader { legacyHeader nm ds with image_list_end := flag } :=
  goodHeader_legacyIT nm ds flag apBinImageType hnm hfl
    (by norm_num [apBinImageType])

theorem goodHeader_certFlag (k : List Nat) (c : CertSpec) (flag : Nat)
    (hn : (certNameOf k c).length ≤ 32) (hfl : flag < 2 ^ 32) :
    goodHeader { certHeader k c with image_list_end := flag } :=
  goodHeader_legacyIT (certNameOf k c) c.cdata.length flag
    { tid := if c.isCert1 then 0 else 2
      reserved0 := 0, reserved1 := 0, group := 2 } hn hfl
    ⟨by split <;> norm_num, by norm_num, by norm_num, by norm_num⟩

theorem nameBytes_legacyIT (nm : List Nat) (ds flag : Nat) (it : ImageType)
    (hnz : ∀ b ∈ nm, b ≠ 0) :
    ({ legacyHeader nm ds with
       image_type := it, image_list_end := flag } : ImageHeader).nameBytes =
      nm := by
  show (nm ++ List.replicate (32 - nm.length) 0).takeWhile (· ≠ 0) = nm
  exact nameBytes_padded nm hnz

theorem nameBytes_ownerFlag (nm : List Nat) (ds flag : Nat)
    (hnz : ∀ b ∈ nm, b ≠ 0) :
    ({ legacyHeader nm ds with image_list_end := flag } :
      ImageHeader).nameBytes = nm :=
  nameBytes_legacyIT nm ds flag apBinImageType hnz

theorem nameBytes_certFlag (k : List Nat) (c : CertSpec) (flag : Nat)
    (hk : ∀ b ∈ k, 0 < b ∧ b < 128) :
    ({ certHeader k c with image_list_end := flag } :
      ImageHeader).nameBytes = certNameOf k c :=
  nameBytes_legacyIT (certNameOf k c) c.cdata.length flag _
    (fun b hb => by have := certNameOf_bytes k c hk b hb; omega)

theorem legacyShape_ownerFlag (nm : List Nat) (d : List Nat) (flag : Nat)
    (hname : nameOK nm) (hd : d.length < 2 ^ 32) (hfl : flag < 2 ^ 32) :
    legacyShape { legacyHeader nm d.length with image_list_end := flag } d := by
  obtain ⟨hlen, hbytes, -⟩ := hname
  refine ⟨goodHeader_ownerFlag nm d.length flag hlen hfl, rfl, rfl, ?_, rfl,
    ?_⟩
  · show d.length % 2 ^ 32 = d.length
    exact Nat.mod_eq_of_lt hd
  · rw [nameBytes_ownerFlag nm d.length flag
      (fun b hb => by have := hbytes b hb; omega)]
    intro b hb
    exact (hbytes b hb).2

theorem legacyShape_certFlag (k : List Nat) (c : CertSpec) (flag : Nat)
    (hk : ∀ b ∈ k, 0 < b ∧ b < 128) (hc : certOK k c) (hfl : flag < 2 ^ 32) :
    legacyShape { certHeader k c with image_list_end := flag } c.cdata := by
  refine ⟨goodHeader_certFlag k c flag hc.1 hfl, rfl, rfl, ?_, rfl, ?_⟩
  · show c.cdata.length % 2 ^ 32 = c.cdata.length
    exact Nat.mod_eq_of_lt hc.2
  · rw [nameBytes_certFlag k c flag hk]
    intro b hb
    exact (certNameOf_bytes k c hk b hb).2

theorem data_size_legacyShape (h : ImageHeader) (d : List Nat)
    (hsh : legacyShape h d) : h.data_size = d.length := by
  rw [ImageHeader.data_size, legacy_is_extended h hsh.2.2.1]
  simpa using hsh.2.2.2.1

theorem serialSpec_legacy (H : ImageHeader) (d : List Nat) (eo : Nat)
    (cqs : List LkPartition) (la : Option Nat) (hze : H.ext_magic = 0)
    (hds : H.data_size = d.length) :
    serialSpec (.mk H d eo cqs la) =
      headerBytes H ++ (d ++ (List.replicate (pad8 d.length) 0 ++
        serialSpecList cqs)) := by
  rw [serialSpec, padSize_legacy H hze, hds]
  simp [List.append_assoc]

theorem serialSpec_length_legacy (H : ImageHeader) (d : List Nat) (eo : Nat)
    (cqs : List LkPartition) (la : Option Nat) (hze : H.ext_magic = 0)
    (hds : H.data_size = d.length) (hc : H.cname.length = 32)
    (hp : H.padding.length = 432) :
    (serialSpec (.mk H d eo cqs la)).length =
      512 + d.length + pad8 d.length + (serialSpecList cqs).length := by
  rw [serialSpec_legacy H d eo cqs la hze hds]
  simp [headerBytes_length H hc hp]
  omega

theorem drop_shift (contents a X : List Nat) (o : Nat)
    (hdrop : contents.drop o = a ++ X) :
    contents.drop (o + a.length) = X := by
  have h : List.drop a.length (List.drop o contents) = X := by
    rw [hdrop, List.drop_left]
  rw [← h, List.drop_drop]

theorem drop_length_le (contents : List Nat) (o : Nat) (a X : List Nat)
    (hdrop : contents.drop o = a ++ X) (ho : o ≤ contents.length) :
    o + a.length ≤ contents.length := by
  have hlen := congrArg List.length hdrop
  simp [List.length_drop] at hlen
  omega

theorem readLE32_at_drop (contents : List Nat) (o : Nat)
    (ho : o ≤ contents.length) :
    readLE32 contents o = readLE32 (contents.drop o) 0 := by
  conv_lhs => rw [← List.take_append_drop o contents]
  rw [readLE32_skip _ _ _ (by rw [List.length_take]; omega)]
  congr 1
  rw [List.length_take]
  omega

theorem isEnd_false_unit (contents : List Nat) (o : Nat) (H : ImageHeader)
    (X : List Nat) (hdrop : contents.drop o = headerBytes H ++ X)
    (ho : o ≤ contents.length) (hg : goodHeader H) (hm : H.magic = MAGIC) :
    isEndOfPartitions contents o = false := by
  have hlen512 : (headerBytes H).length = 512 :=
    headerBytes_length H hg.1 hg.2.1
  have hL := congrArg List.length hdrop
  simp [List.length_drop, hlen512] at hL
  have hr : readLE32 contents o = MAGIC := by
    rw [readLE32_at_drop contents o ho, hdrop]
    rw [show headerBytes H ++ X = le32 H.magic ++ ((le32 H.dsize ++ H.cname ++
      le32 H.maddr ++ le32 H.mode ++ le32 H.ext_magic ++ le32 H.hdr_size ++
      le32 H.hdr_version ++
      [H.image_type.tid % 256, H.image_type.reserved0 % 256,
       H.image_type.reserved1 % 256, H.image_type.group % 256] ++
      le32 H.image_list_end ++ le32 H.alignment ++ le32 H.dsize_extend ++
      le32 H.maddr_extend ++ H.padding) ++ X) from by
        simp [headerBytes, List.append_assoc]]
    rw [readLE32_start H.magic (by rw [hm]; norm_num [MAGIC]), hm]
  unfold isEndOfPartitions
  rw [if_neg (by omega), if_neg (by omega), if_neg (by simp [hr])]

theorem parseLoop_at_end (contents : List Nat) (fuel o : Nat)
    (ln : List Nat) (parts : Parts) (ho : contents.length ≤ o)
    (hf : 1 ≤ fuel) : parseLoop contents fuel o ln parts = .ok parts := by
  cases fuel with
  | zero => omega
  | succ f =>
    rw [parseLoop]
    rw [if_neg (by omega)]

theorem hasKey_false_iff (ps : Parts) (k : List Nat) :
    hasKey ps k = false ↔ ∀ e ∈ ps, e.1 ≠ k := by
  simp [hasKey]

theorem hasKey_append (ps qs : Parts) (k : List Nat) :
    hasKey (ps ++ qs) k = (hasKey ps k || hasKey qs k) := by
  simp [hasKey, List.any_append]

theorem hasKey_last (ps0 : Parts) (k : List Nat) (p : LkPartition) :
    hasKey (ps0 ++ [(k, p)]) k = true := by
  simp [hasKey]

theorem appendCert_last (ps0 : Parts) (k : List Nat) (p : LkPartition)
    (c : LkPartition) (h0 : ∀ e ∈ ps0, e.1 ≠ k) :
    appendCert (ps0 ++ [(k, p)]) k c =
      ps0 ++ [(k, p.setCerts (p.certs ++ [c]))] := by
  unfold appendCert
  rw [List.map_append]
  congr 1
  · have heach : ∀ e ∈ ps0,
        (if e.1 == k then (e.1, e.2.setCerts (e.2.certs ++ [c])) else e) =
          id e := by
      intro e he
      rw [if_neg (by simpa using h0 e he)]
      rfl
    rw [List.map_congr_left heach, List.map_id]
  · simp

theorem cert_data_size (k : List Nat) (c : CertSpec) (flag : Nat)
    (hcd : c.cdata.length < 2 ^ 32) :
    ({ certHeader k c with image_list_end := flag } :
      ImageHeader).data_size = c.cdata.length := by
  rw [ImageHeader.data_size, legacy_is_extended _ rfl]
  show c.cdata.length % 2 ^ 32 = c.cdata.length
  exact Nat.mod_eq_of_lt hcd

theorem cert_cname_length (k : List Nat) (c : CertSpec) (flag : Nat)
    (hn : (certNameOf k c).length ≤ 32) :
    ({ certHeader k c with image_list_end := flag} :
      ImageHeader).cname.length = 32 := by
  show (certNameOf k c ++
    List.replicate (32 - (certNameOf k c).length) 0).length = 32
  rw [List.length_append, List.length_replicate]
  omega

theorem owner_data_size (nm : List Nat) (n flag : Nat) (hn : n < 2 ^ 32) :
    ({ legacyHeader nm n with image_list_end := flag } :
      ImageHeader).data_size = n := by
  rw [ImageHeader.data_size, legacy_is_extended _ rfl]
  show n % 2 ^ 32 = n
  exact Nat.mod_eq_of_lt hn

theorem owner_cname_length (nm : List Nat) (n flag : Nat)
    (hnm : nm.length ≤ 32) :
    ({ legacyHeader nm n with image_list_end := flag } :
      ImageHeader).cname.length = 32 := by
  show (nm ++ List.replicate (32 - nm.length) 0).length = 32
  rw [List.length_append, List.length_replicate]
  omega

theorem legacy_padding_length (nm : List Nat) (ds flag : Nat) :
    ({ legacyHeader nm ds with image_list_end := flag } :
      ImageHeader).padding.length = 432 := by
  show (List.replicate 432 (0 : Nat)).length = 432
  rw [List.length_replicate]

theorem cert_padding_length (k : List Nat) (c : CertSpec) (flag : Nat) :
    ({ certHeader k c with image_list_end := flag } :
      ImageHeader).padding.length = 432 := by
  show (List.replicate 432 (0 : Nat)).length = 432
  rw [List.length_replicate]

set_option maxRecDepth 4096 in
theorem serialSpecList_mod8 (k : List Nat) :
    ∀ (cspecs : List CertSpec) (cqs : List LkPartition),
      wfCerts k cqs cspecs → (∀ c ∈ cspecs, certOK k c) →
      (serialSpecList cqs).length % 8 = 0
  | [], [], _, _ => rfl
  | [], _ :: _, hwf, _ => by cases hwf
  | _ :: _, [], hwf, _ => by cases hwf
  | c :: cs, cq :: cqs, hwf, hcok => by
    rw [wfCerts] at hwf
    obtain ⟨⟨flag, hfl, rfl⟩, hrest⟩ := hwf
    have hco : certOK k c := hcok c (by simp)
    have hlen := serialSpec_length_legacy
      { certHeader k c with image_list_end := flag } c.cdata 0 [] none rfl
      (cert_data_size k c flag hco.2) (cert_cname_length k c flag hco.1)
      (cert_padding_length k c flag)
    rw [show (serialSpecList ([] : List LkPartition)).length = 0 from rfl]
      at hlen
    rw [serialSpecList, List.length_append, hlen]
    have h8 := pad8_add c.cdata.length
    have hih := serialSpecList_mod8 k cs cqs hrest
      (fun c' hc' => hcok c' (by simp [hc']))
    omega

theorem goodTail_certStream (k : List Nat) :
    ∀ (cspecs : List CertSpec) (cqs : List LkPartition),
      wfCerts k cqs cspecs → (∀ c ∈ cspecs, certOK k c) →
      ∀ tail, goodTail tail → goodTail (serialSpecList cqs ++ tail)
  | [], [], _, _, tail, ht => by simpa using ht
  | [], _ :: _, hwf, _, _, _ => by cases hwf
  | _ :: _, [], hwf, _, _, _ => by cases hwf
  | c :: cs, cq :: cqs, hwf, hcok, tail, ht => by
    rw [wfCerts] at hwf
    obtain ⟨⟨flag, hfl, rfl⟩, hrest⟩ := hwf
    have hco : certOK k c := hcok c (by simp)
    right
    refine ⟨{ certHeader k c with image_list_end := flag },
      c.cdata ++ (List.replicate (pad8 c.cdata.length) 0 ++
        (serialSpecList cqs ++ tail)), ?_,
      goodHeader_certFlag k c flag hco.1 hfl, rfl⟩
    rw [serialSpecList,
      serialSpec_legacy _ c.cdata 0 [] none rfl
        (cert_data_size k c flag hco.2)]
    simp [serialSpecList, List.append_assoc]

theorem goodTail_ownerStream :
    ∀ (specs : List PartSpec) (qs : Parts),
      wfParts qs specs → (∀ s ∈ specs, specOK s) →
      goodTail (streamParts qs)
  | [], [], _, _ => Or.inl rfl
  | [], _ :: _, hwf, _ => by cases hwf
  | _ :: _, [], hwf, _ => by cases hwf
  | s :: ss, (key, p) :: qs, hwf, hok => by
    rw [wfParts] at hwf
    obtain ⟨hkey, ⟨flag, eo, certsQ, hfl, rfl, hwc⟩, hrest⟩ := hwf
    have hso : specOK s := hok s (by simp)
    right
    refine ⟨{ legacyHeader s.pname s.pdata.length with
        image_list_end := flag },
      s.pdata ++ (List.replicate (pad8 s.pdata.length) 0 ++
        (serialSpecList certsQ ++ streamParts qs)), ?_,
      goodHeader_ownerFlag _ _ flag hso.1.1 hfl, rfl⟩
    rw [streamParts, List.map_cons, List.flatten_cons,
      serialSpec_legacy _ s.pdata eo certsQ none rfl
        (owner_data_size s.pname s.pdata.length flag hso.2.1)]
    simp [streamParts, List.append_assoc]

theorem sizesOkList_wfCerts (k : List Nat) :
    ∀ (cspecs : List CertSpec) (cqs : List LkPartition),
      wfCerts k cqs cspecs → (∀ c ∈ cspecs, certOK k c) →
      sizesOkList cqs = true
  | [], [], _, _ => rfl
  | [], _ :: _, hwf, _ => by cases hwf
  | _ :: _, [], hwf, _ => by cases hwf
  | c :: cs, cq :: cqs, hwf, hcok => by
    rw [wfCerts] at hwf
    obtain ⟨⟨flag, hfl, rfl⟩, hrest⟩ := hwf
    have hco : certOK k c := hcok c (by simp)
    rw [sizesOkList, Bool.and_eq_true]
    refine ⟨?_, sizesOkList_wfCerts k cs cqs hrest
      (fun c' hc' => hcok c' (by simp [hc']))⟩
    rw [sizesOk, Bool.and_eq_true]
    exact ⟨by simp [cert_data_size k c flag hco.2], rfl⟩

theorem sizesOk_wfParts :
    ∀ (specs : List PartSpec) (qs : Parts),
      wfParts qs specs → (∀ s ∈ specs, specOK s) →
      ∀ e ∈ qs, sizesOk e.2 = true
  | [], [], _, _ => by intro e he; cases he
  | [], _ :: _, hwf, _ => by cases hwf
  | _ :: _, [], hwf, _ => by cases hwf
  | s :: ss, (key, p) :: qs, hwf, hok => by
    rw [wfParts] at hwf
    obtain ⟨hkey, ⟨flag, eo, certsQ, hfl, rfl, hwc⟩, hrest⟩ := hwf
    have hso : specOK s := hok s (by simp)
    intro e he
    rcases List.mem_cons.mp he with rfl | he
    · rw [sizesOk, Bool.and_eq_true]
      exact ⟨by simp [owner_data_size s.pname s.pdata.length flag hso.2.1],
        sizesOkList_wfCerts s.pname s.pcerts certsQ hwc hso.2.2⟩
    · exact sizesOk_wfParts ss qs hrest
        (fun s' hs' => hok s' (by simp [hs'])) e he

theorem projCerts_wfCerts (k : List Nat) (hk : ∀ b ∈ k, 0 < b ∧ b < 128) :
    ∀ (cspecs : List CertSpec) (cqs : List LkPartition),
      wfCerts k cqs cspecs → (∀ c ∈ cspecs, certOK k c) →
      cqs.map projCert = cspecs.map (fun c => (certNameOf k c, c.cdata))
  | [], [], _, _ => rfl
  | [], _ :: _, hwf, _ => by cases hwf
  | _ :: _, [], hwf, _ => by cases hwf
  | c :: cs, cq :: cqs, hwf, hcok => by
    rw [wfCerts] at hwf
    obtain ⟨⟨flag, hfl, rfl⟩, hrest⟩ := hwf
    rw [List.map_cons, List.map_cons, projCerts_wfCerts k hk cs cqs hrest
      (fun c' hc' => hcok c' (by simp [hc']))]
    congr 1
    show (({ certHeader k c with image_list_end := flag } :
      ImageHeader).nameBytes, c.cdata) = (certNameOf k c, c.cdata)
    rw [nameBytes_certFlag k c flag hk]

theorem projParts_wfParts :
    ∀ (specs : List PartSpec) (qs : Parts),
      wfParts qs specs → (∀ s ∈ specs, specOK s) →
      projParts qs = specs.map specProj
  | [], [], _, _ => rfl
  | [], _ :: _, hwf, _ => by cases hwf
  | _ :: _, [], hwf, _ => by cases hwf
  | s :: ss, (key, p) :: qs, hwf, hok => by
    rw [wfParts] at hwf
    obtain ⟨hkey, ⟨flag, eo, certsQ, hfl, rfl, hwc⟩, hrest⟩ := hwf
    have hso : specOK s := hok s (by simp)
    subst hkey
    rw [projParts, List.map_cons, List.map_cons]
    congr 1
    · show (s.pname, s.pdata, certsQ.map projCert) = specProj s
      rw [projCerts_wfCerts s.pname hso.1.2.1 s.pcerts certsQ hwc hso.2.2]
      rfl
    · exact projParts_wfParts ss qs hrest
        (fun s' hs' => hok s' (by simp [hs']))

theorem certCount_le_streamLength (k : List Nat) :
    ∀ (cspecs : List CertSpec) (cqs : List LkPartition),
      wfCerts k cqs cspecs → (∀ c ∈ cspecs, certOK k c) →
      cspecs.length ≤ (serialSpecList cqs).length
  | [], [], _, _ => Nat.zero_le _
  | [], _ :: _, hwf, _ => by cases hwf
  | _ :: _, [], hwf, _ => by cases hwf
  | c :: cs, cq :: cqs, hwf, hcok => by
    rw [wfCerts] at hwf
    obtain ⟨⟨flag, hfl, rfl⟩, hrest⟩ := hwf
    have hco : certOK k c := hcok c (by simp)
    have hlen := serialSpec_length_legacy
      { certHeader k c with image_list_end := flag } c.cdata 0 [] none rfl
      (cert_data_size k c flag hco.2) (cert_cname_length k c flag hco.1)
      (cert_padding_length k c flag)
    have hih := certCount_le_streamLength k cs cqs hrest
      (fun c' hc' => hcok c' (by simp [hc']))
    rw [serialSpecList, List.length_append, List.length_cons, hlen]
    omega

theorem unitsCount_le_streamLength :
    ∀ (specs : List PartSpec) (qs : Parts),
      wfParts qs specs → (∀ s ∈ specs, specOK s) →
      unitsCount specs ≤ (streamParts qs).length
  | [], [], _, _ => Nat.zero_le _
  | [], _ :: _, hwf, _ => by cases hwf
  | _ :: _, [], hwf, _ => by cases hwf
  | s :: ss, (key, p) :: qs, hwf, hok => by
    rw [wfParts] at hwf
    obtain ⟨hkey, ⟨flag, eo, certsQ, hfl, rfl, hwc⟩, hrest⟩ := hwf
    have hso : specOK s := hok s (by simp)
    have hlen := serialSpec_length_legacy
      { legacyHeader s.pname s.pdata.length with image_list_end := flag }
      s.pdata eo certsQ none rfl
      (owner_data_size s.pname s.pdata.length flag hso.2.1)
      (owner_cname_length s.pname s.pdata.length flag hso.1.1)
      (legacy_padding_length s.pname s.pdata.length flag)
    have hcert := certCount_le_streamLength s.pname s.pcerts certsQ hwc
      hso.2.2
    have hih := unitsCount_le_streamLength ss qs hrest
      (fun s' hs' => hok s' (by simp [hs']))
    rw [unitsCount, List.map_cons, List.sum_cons, streamParts,
      List.map_cons, List.flatten_cons, List.length_append, hlen]
    rw [unitsCount] at hih
    rw [streamParts] at hih
    omega

theorem parseLoop_certStep
    (contents : List Nat) (k : List Nat) (c : CertSpec) (flag : Nat)
    (hkok : ∀ b ∈ k, 0 < b ∧ b < 128) (hco : certOK k c)
    (hfl : flag < 2 ^ 32) (o : Nat) (rest : List Nat) (f : Nat)
    (ps0 : Parts) (p : LkPartition) (h0 : ∀ e ∈ ps0, e.1 ≠ k)
    (hdrop : contents.drop o =
      serialSpec (.mk { certHeader k c with image_list_end := flag }
        c.cdata 0 [] none) ++ rest)
    (ho : o ≤ contents.length) (ho8 : o % 8 = 0) :
    parseLoop contents (f + 1) o k (ps0 ++ [(k, p)]) =
      if isEndOfPartitions contents
          (o + 512 + c.cdata.length + pad8 c.cdata.length) = true then
        .ok (ps0 ++ [(k, p.setCerts (p.certs ++
          [.mk { certHeader k c with image_list_end := flag } c.cdata
            (o + 512 + c.cdata.length + pad8 c.cdata.length) [] none]))])
      else
        parseLoop contents f
          (o + 512 + c.cdata.length + pad8 c.cdata.length) k
          (ps0 ++ [(k, p.setCerts (p.certs ++
            [.mk { certHeader k c with image_list_end := flag } c.cdata
              (o + 512 + c.cdata.length + pad8 c.cdata.length) []
              none]))]) := by
  have hshape := legacyShape_certFlag k c flag hkok hco hfl
  have hds := cert_data_size k c flag hco.2
  have hdropU : contents.drop o =
      headerBytes { certHeader k c with image_list_end := flag } ++
        (c.cdata ++ (List.replicate (pad8 c.cdata.length) 0 ++ rest)) := by
    rw [hdrop, serialSpec_legacy _ c.cdata 0 [] none rfl hds]
    simp [serialSpecList, List.append_assoc]
  have hfb : fromBytes (contents.drop o) o =
      .ok (.mk { certHeader k c with image_list_end := flag } c.cdata
        (o + 512 + c.cdata.length + pad8 c.cdata.length) [] none) := by
    rw [hdropU, fromBytes_legacyUnit _ c.cdata _ o hshape ho8,
      nameBytes_certFlag k c flag hkok, if_neg (certNameOf_not_lk k c)]
  have ho_lt : o < contents.length := by
    have hL := congrArg List.length hdropU
    rw [List.length_drop, List.length_append,
      headerBytes_length _ (cert_cname_length k c flag hco.1)
        (cert_padding_length k c flag)] at hL
    omega
  have hm : ({ certHeader k c with image_list_end := flag } :
      ImageHeader).magic = MAGIC := rfl
  have hext := legacy_is_extended
    ({ certHeader k c with image_list_end := flag }) rfl
  rw [parseLoop, if_pos ho_lt, hfb]
  simp only [LkPartition.header, LkPartition.endOffset, hm, ne_eq,
    not_true_eq_false, if_false, nameBytes_certFlag k c flag hkok,
    certPrefix_certNameOf k c, if_true, hasKey_last ps0 k p,
    Bool.not_eq_true', Bool.true_eq_false, ite_false,
    appendCert_last ps0 k p _ h0, hext, Bool.false_eq_true, false_and,
    not_false_eq_true, true_or, true_and]

theorem parseLoop_ownerStep
    (contents : List Nat) (s : PartSpec) (flag eo : Nat)
    (certsQ : List LkPartition) (hso : specOK s) (hfl : flag < 2 ^ 32)
    (o : Nat) (rest : List Nat) (f : Nat)
    (partsAcc : Parts) (lastName : List Nat)
    (hnk : hasKey partsAcc s.pname = false)
    (hdrop : contents.drop o =
      serialSpec (.mk { legacyHeader s.pname s.pdata.length with
          image_list_end := flag } s.pdata eo certsQ none) ++ rest)
    (ho : o ≤ contents.length) (ho8 : o % 8 = 0) :
    parseLoop contents (f + 1) o lastName partsAcc =
      if isEndOfPartitions contents
          (o + 512 + s.pdata.length + pad8 s.pdata.length) = true then
        .ok (partsAcc ++ [(s.pname,
          .mk { legacyHeader s.pname s.pdata.length with
              image_list_end := flag } s.pdata
            (o + 512 + s.pdata.length + pad8 s.pdata.length) []
            (if lowerBytes s.pname = lkName then some 0 else none))])
      else
        parseLoop contents f
          (o + 512 + s.pdata.length + pad8 s.pdata.length) s.pname
          (partsAcc ++ [(s.pname,
            .mk { legacyHeader s.pname s.pdata.length with
                image_list_end := flag } s.pdata
              (o + 512 + s.pdata.length + pad8 s.pdata.length) []
              (if lowerBytes s.pname = lkName then some 0
               else none))]) := by
  obtain ⟨hname, hdl, hcerts⟩ := hso
  have hshape := legacyShape_ownerFlag s.pname s.pdata flag hname hdl hfl
  have hds := owner_data_size s.pname s.pdata.length flag hdl
  have hdropU : contents.drop o =
      headerBytes { legacyHeader s.pname s.pdata.length with
          image_list_end := flag } ++
        (s.pdata ++ (List.replicate (pad8 s.pdata.length) 0 ++
          (serialSpecList certsQ ++ rest))) := by
    rw [hdrop, serialSpec_legacy _ s.pdata eo certsQ none rfl hds]
    simp [List.append_assoc]
  have hma : ({ legacyHeader s.pname s.pdata.length with
      image_list_end := flag } : ImageHeader).memory_address = 0 := by
    rw [ImageHeader.memory_address, legacy_is_extended _ rfl]
    simp only [Bool.false_eq_true, if_false]
    rfl
  have hnb := nameBytes_ownerFlag s.pname s.pdata.length flag
    (fun b hb => by have := hname.2.1 b hb; omega)
  have hfb : fromBytes (contents.drop o) o =
      .ok (.mk { legacyHeader s.pname s.pdata.length with
          image_list_end := flag } s.pdata
        (o + 512 + s.pdata.length + pad8 s.pdata.length) []
        (if lowerBytes s.pname = lkName then some 0 else none)) := by
    rw [hdropU, fromBytes_legacyUnit _ s.pdata _ o hshape ho8, hnb, hma]
  have ho_lt : o < contents.length := by
    have hL := congrArg List.length hdropU
    rw [List.length_drop, List.length_append,
      headerBytes_length _ (owner_cname_length s.pname s.pdata.length flag
        hname.1) (legacy_padding_length s.pname s.pdata.length flag)] at hL
    omega
  have hm : ({ legacyHeader s.pname s.pdata.length with
      image_list_end := flag } : ImageHeader).magic = MAGIC := rfl
  have hext := legacy_is_extended
    ({ legacyHeader s.pname s.pdata.length with image_list_end := flag }) rfl
  have hpre : certPrefix.isPrefixOf s.pname = false :=
    eq_false_of_ne_true (fun hc => hname.2.2 hc)
  rw [parseLoop, if_pos ho_lt, hfb]
  simp only [LkPartition.header, LkPartition.endOffset, hm, ne_eq,
    not_true_eq_false, if_false, hnb, hpre, Bool.false_eq_true, ite_false,
    hnk, Bool.not_eq_true', Bool.true_eq_false, ite_true, hext, false_and,
    not_false_eq_true, true_or, true_and]

theorem drop_nil_length (contents : List Nat) (o : Nat)
    (hdrop : contents.drop o = []) : contents.length ≤ o := by
  have hlen := congrArg List.length hdrop
  rw [List.length_drop] at hlen
  simp at hlen
  omega

set_option maxHeartbeats 1000000 in
theorem parse_certSteps (contents : List Nat) (k : List Nat)
    (hkok : ∀ b ∈ k, 0 < b ∧ b < 128) (Q : Parts → Prop) (B : Nat) :
    ∀ (cspecs : List CertSpec) (cqs : List LkPartition),
      wfCerts k cqs cspecs →
      (∀ c ∈ cspecs, certOK k c) →
      ∀ (o : Nat) (tail : List Nat) (ps0 : Parts) (H : ImageHeader)
        (d : List Nat) (eo : Nat) (csAcc : List LkPartition)
        (la : Option Nat),
        contents.drop o = serialSpecList cqs ++ tail →
        o ≤ contents.length →
        o % 8 = 0 →
        goodTail tail →
        (∀ e ∈ ps0, e.1 ≠ k) →
        (∀ fuel', B + 1 ≤ fuel' →
          ∀ csNew : List LkPartition,
            csNew.map projCert =
              cspecs.map (fun c => (certNameOf k c, c.cdata)) →
            ∃ res, parseLoop contents fuel'
                (o + (serialSpecList cqs).length) k
                (ps0 ++ [(k, .mk H d eo (csAcc ++ csNew) la)]) = .ok res ∧
              Q res) →
        ∀ fuel, B + 1 + cspecs.length ≤ fuel →
          ∃ res, parseLoop contents fuel o k
              (ps0 ++ [(k, .mk H d eo csAcc la)]) = .ok res ∧ Q res
  | [], [], _, _ => by
    intro o tail ps0 H d eo csAcc la hdrop ho ho8 htail h0 Hcont fuel hfuel
    have h := Hcont fuel (by omega) [] rfl
    simpa [serialSpecList] using h
  | [], _ :: _, hwf, _ => by cases hwf
  | _ :: _, [], hwf, _ => by cases hwf
  | c :: cs, cq :: cqs, hwf, hcok => by
    rw [wfCerts] at hwf
    obtain ⟨⟨flag, hfl, rfl⟩, hrest⟩ := hwf
    intro o tail ps0 H d eo csAcc la hdrop ho ho8 htail h0 Hcont fuel hfuel
    cases fuel with
    | zero => omega
    | succ f =>
    have hco : certOK k c := hcok c (by simp)
    have hcok' : ∀ c' ∈ cs, certOK k c' :=
      fun c' hc' => hcok c' (by simp [hc'])
    have hdropA : contents.drop o =
        serialSpec (.mk { certHeader k c with image_list_end := flag }
          c.cdata 0 [] none) ++ (serialSpecList cqs ++ tail) := by
      rw [hdrop, serialSpecList, List.append_assoc]
    have hstep := parseLoop_certStep contents k c flag hkok hco hfl o
      (serialSpecList cqs ++ tail) f ps0 (.mk H d eo csAcc la) h0 hdropA
      ho ho8
    have hlenU : (serialSpec (.mk
        ({ certHeader k c with image_list_end := flag }) c.cdata 0 []
          none)).length = 512 + c.cdata.length + pad8 c.cdata.length := by
      have h := serialSpec_length_legacy _ c.cdata 0 [] none rfl
        (cert_data_size k c flag hco.2) (cert_cname_length k c flag hco.1)
        (cert_padding_length k c flag)
      simpa [serialSpecList] using h
    have hdrop' : contents.drop
        (o + 512 + c.cdata.length + pad8 c.cdata.length) =
        serialSpecList cqs ++ tail := by
      have h := drop_shift contents _ _ o hdropA
      rw [hlenU] at h
      rw [show o + 512 + c.cdata.length + pad8 c.cdata.length =
        o + (512 + c.cdata.length + pad8 c.cdata.length) from by omega]
      exact h
    have ho' : o + 512 + c.cdata.length + pad8 c.cdata.length ≤
        contents.length := by
      have h := drop_length_le contents o _ _ hdropA ho
      rw [hlenU] at h
      omega
    have ho8' : (o + 512 + c.cdata.length + pad8 c.cdata.length) % 8 = 0 := by
      have h8 := pad8_add c.cdata.length
      omega
    rw [hstep]
    simp only [LkPartition.setCerts, LkPartition.certs]
    by_cases hend : serialSpecList cqs ++ tail = []
    · obtain ⟨hnil1, hnil2⟩ := List.append_eq_nil.mp hend
      have hcqs : cqs = [] := by
        cases cqs with
        | nil => rfl
        | cons cq' cqs' =>
          exfalso
          cases cs with
          | nil => cases hrest
          | cons c' cs' =>
            rw [wfCerts] at hrest
            obtain ⟨⟨flag', hfl', rfl⟩, -⟩ := hrest
            have hco' : certOK k c' := hcok' c' (by simp)
            have hlen' := serialSpec_length_legacy _ c'.cdata 0 [] none rfl
              (cert_data_size k c' flag' hco'.2)
              (cert_cname_length k c' flag' hco'.1)
              (cert_padding_length k c' flag')
            have hL := congrArg List.length hnil1
            rw [serialSpecList, List.length_append, hlen'] at hL
            simp at hL
      subst hcqs
      have hcs : cs = [] := by
        cases cs with
        | nil => rfl
        | cons c' cs' => cases hrest
      subst hcs
      subst hnil2
      have hoend : contents.length ≤
          o + 512 + c.cdata.length + pad8 c.cdata.length := by
        apply drop_nil_length
        simpa [serialSpecList] using hdrop'
      have hEnd : isEndOfPartitions contents
          (o + 512 + c.cdata.length + pad8 c.cdata.length) = true := by
        unfold isEndOfPartitions
        rw [if_pos (by omega)]
      rw [if_pos hEnd]
      obtain ⟨res, hres, hQ⟩ := Hcont (B + 1) (le_refl _)
        [.mk { certHeader k c with image_list_end := flag } c.cdata
          (o + 512 + c.cdata.length + pad8 c.cdata.length) [] none]
        (by rw [List.map_cons, List.map_cons, List.map_nil, List.map_nil]
            congr 1
            show (({ certHeader k c with image_list_end := flag } :
              ImageHeader).nameBytes, c.cdata) = (certNameOf k c, c.cdata)
            rw [nameBytes_certFlag k c flag hkok])
      rw [parseLoop_at_end contents (B + 1) _ k _
        (by rw [show o + (serialSpecList
            [LkPartition.mk { certHeader k c with image_list_end := flag }
              c.cdata 0 [] none]).length =
            o + 512 + c.cdata.length + pad8 c.cdata.length from by
              rw [serialSpecList, List.length_append, hlenU,
                show (serialSpecList ([] : List LkPartition)).length = 0
                  from rfl]
              omega]
            exact hoend)
        (by omega)] at hres
      rw [Except.ok.injEq] at hres
      subst hres
      exact ⟨_, rfl, hQ⟩
    · have hgt := goodTail_certStream k cs cqs hrest hcok' tail htail
      rcases hgt with hnil | ⟨H', X, hX, hgH, hmH⟩
      · exact absurd hnil hend
      · have hEnd : isEndOfPartitions contents
            (o + 512 + c.cdata.length + pad8 c.cdata.length) = false :=
          isEnd_false_unit contents _ H' X (by rw [hdrop', hX]) ho' hgH hmH
        rw [if_neg (by rw [hEnd]; exact Bool.false_ne_true)]
        refine parse_certSteps contents k hkok Q B cs cqs hrest hcok'
          _ tail ps0 H d eo _ la hdrop' ho' ho8' htail h0 ?_ f
          (by rw [List.length_cons] at hfuel; omega)
        intro fuel' hf' csNew' hproj'
        have h := Hcont fuel' hf'
          (.mk { certHeader k c with image_list_end := flag } c.cdata
            (o + 512 + c.cdata.length + pad8 c.cdata.length) [] none ::
            csNew')
          (by rw [List.map_cons, List.map_cons, hproj']
              congr 1
              show (({ certHeader k c with image_list_end := flag } :
                ImageHeader).nameBytes, c.cdata) =
                (certNameOf k c, c.cdata)
              rw [nameBytes_certFlag k c flag hkok])
        rw [show o + (serialSpecList
            (LkPartition.mk { certHeader k c with image_list_end := flag }
              c.cdata 0 [] none :: cqs)).length =
            o + 512 + c.cdata.length + pad8 c.cdata.length +
              (serialSpecList cqs).length from by
            rw [serialSpecList, List.length_append, hlenU]
            omega] at h
        rw [show csAcc ++ (LkPartition.mk
            { certHeader k c with image_list_end := flag } c.cdata
            (o + 512 + c.cdata.length + pad8 c.cdata.length) [] none ::
            csNew') = (csAcc ++
            [LkPartition.mk { certHeader k c with image_list_end := flag }
              c.cdata
              (o + 512 + c.cdata.length + pad8 c.cdata.length) [] none]) ++
            csNew' from by simp] at h
        exact h

set_option maxHeartbeats 1000000 in
theorem parse_ownerSteps (contents : List Nat) :
    ∀ (specs : List PartSpec) (qs : Parts),
      wfParts qs specs →
      (∀ s ∈ specs, specOK s) →
      (specs.map PartSpec.pname).Nodup →
      ∀ (o : Nat) (partsAcc : Parts) (lastName : List Nat),
        contents.drop o = streamParts qs →
        o ≤ contents.length →
        o % 8 = 0 →
        (∀ s ∈ specs, hasKey partsAcc s.pname = false) →
        ∀ fuel, unitsCount specs + 1 ≤ fuel →
          ∃ entries, parseLoop contents fuel o lastName partsAcc =
              .ok (partsAcc ++ entries) ∧
            projParts entries = specs.map specProj
  | [], [], _, _ => by
    intro hnd o partsAcc lastName hdrop ho ho8 hkeys fuel hfuel
    refine ⟨[], ?_, rfl⟩
    rw [parseLoop_at_end contents fuel o lastName partsAcc
      (drop_nil_length contents o (by simpa [streamParts] using hdrop))
      (by omega)]
    simp
  | [], _ :: _, hwf, _ => by cases hwf
  | _ :: _, [], hwf, _ => by cases hwf
  | s :: ss, (key, p) :: qs, hwf, hok => by
    rw [wfParts] at hwf
    obtain ⟨hkey, ⟨flag, eo, certsQ, hfl, rfl, hwc⟩, hrest⟩ := hwf
    subst hkey
    intro hnd o partsAcc lastName hdrop ho ho8 hkeys fuel hfuel
    cases fuel with
    | zero => omega
    | succ f =>
    have hso : specOK s := hok s (by simp)
    have hok' : ∀ s' ∈ ss, specOK s' := fun s' hs' => hok s' (by simp [hs'])
    have hnd' : (ss.map PartSpec.pname).Nodup := (List.nodup_cons.mp hnd).2
    have hnotin : s.pname ∉ ss.map PartSpec.pname :=
      (List.nodup_cons.mp hnd).1
    have hds := owner_data_size s.pname s.pdata.length flag hso.2.1
    have hdropA : contents.drop o =
        serialSpec (.mk { legacyHeader s.pname s.pdata.length with
          image_list_end := flag } s.pdata eo certsQ none) ++
          streamParts qs := by
      rw [hdrop, streamParts, streamParts, List.map_cons, List.flatten_cons]
    have hstep := parseLoop_ownerStep contents s flag eo certsQ hso hfl o
      (streamParts qs) f partsAcc lastName (hkeys s (by simp)) hdropA ho ho8
    have hdropB : contents.drop o =
        (headerBytes { legacyHeader s.pname s.pdata.length with
          image_list_end := flag } ++
          (s.pdata ++ List.replicate (pad8 s.pdata.length) 0)) ++
          (serialSpecList certsQ ++ streamParts qs) := by
      rw [hdropA, serialSpec_legacy _ s.pdata eo certsQ none rfl hds]
      simp [List.append_assoc]
    have hlen1 : (headerBytes { legacyHeader s.pname s.pdata.length with
        image_list_end := flag } ++
        (s.pdata ++ List.replicate (pad8 s.pdata.length) 0)).length =
        512 + s.pdata.length + pad8 s.pdata.length := by
      rw [List.length_append, List.length_append, List.length_replicate,
        headerBytes_length _
          (owner_cname_length s.pname s.pdata.length flag hso.1.1)
          (legacy_padding_length s.pname s.pdata.length flag)]
      omega
    have hdropO1 : contents.drop
        (o + 512 + s.pdata.length + pad8 s.pdata.length) =
        serialSpecList certsQ ++ streamParts qs := by
      have h := drop_shift contents _ _ o hdropB
      rw [hlen1] at h
      rw [show o + 512 + s.pdata.length + pad8 s.pdata.length =
        o + (512 + s.pdata.length + pad8 s.pdata.length) from by omega]
      exact h
    have ho1 : o + 512 + s.pdata.length + pad8 s.pdata.length ≤
        contents.length := by
      have h := drop_length_le contents o _ _ hdropB ho
      rw [hlen1] at h
      omega
    have ho81 : (o + 512 + s.pdata.length + pad8 s.pdata.length) % 8 = 0 := by
      have h8 := pad8_add s.pdata.length
      omega
    have htail1 : goodTail (streamParts qs) :=
      goodTail_ownerStream ss qs hrest hok'
    rw [hstep]
    by_cases hend : serialSpecList certsQ ++ streamParts qs = []
    · obtain ⟨hn1, hn2⟩ := List.append_eq_nil.mp hend
      have hcq : certsQ = [] := by
        cases certsQ with
        | nil => rfl
        | cons cq' cqs' =>
          exfalso
          cases hpc : s.pcerts with
          | nil =>
            rw [hpc] at hwc
            cases hwc
          | cons c' cs' =>
            rw [hpc, wfCerts] at hwc
            obtain ⟨⟨flag', hfl', rfl⟩, -⟩ := hwc
            have hco' : certOK s.pname c' := by
              have := hso.2.2
              rw [hpc] at this
              exact this c' (by simp)
            have hlen' := serialSpec_length_legacy _ c'.cdata 0 [] none rfl
              (cert_data_size s.pname c' flag' hco'.2)
              (cert_cname_length s.pname c' flag' hco'.1)
              (cert_padding_length s.pname c' flag')
            have hL := congrArg List.length hn1
            rw [serialSpecList, List.length_append, hlen'] at hL
            simp at hL
      subst hcq
      have hpc : s.pcerts = [] := by
        cases hpc : s.pcerts with
        | nil => rfl
        | cons c' cs' =>
          rw [hpc] at hwc
          cases hwc
      have hqs : qs = [] := by
        cases qs with
        | nil => rfl
        | cons e qs' =>
          exfalso
          cases ss with
          | nil => cases hrest
          | cons s' ss' =>
            rw [wfParts] at hrest
            obtain ⟨e2, p2⟩ := e
            obtain ⟨hkey', ⟨flag', eo', certsQ', hfl', rfl, hwc'⟩, -⟩ :=
              hrest
            have hso' : specOK s' := hok' s' (by simp)
            have hlen' := serialSpec_length_legacy _ s'.pdata eo' certsQ'
              none rfl
              (owner_data_size s'.pname s'.pdata.length flag' hso'.2.1)
              (owner_cname_length s'.pname s'.pdata.length flag' hso'.1.1)
              (legacy_padding_length s'.pname s'.pdata.length flag')
            have hL := congrArg List.length hn2
            rw [streamParts, List.map_cons, List.flatten_cons,
              List.length_append, hlen'] at hL
            simp at hL
      subst hqs
      have hss : ss = [] := by
        cases ss with
        | nil => rfl
        | cons s' ss' => cases hrest
      subst hss
      have hoend : contents.length ≤
          o + 512 + s.pdata.length + pad8 s.pdata.length := by
        apply drop_nil_length
        simpa [serialSpecList, streamParts] using hdropO1
      have hEnd : isEndOfPartitions contents
          (o + 512 + s.pdata.length + pad8 s.pdata.length) = true := by
        unfold isEndOfPartitions
        rw [if_pos (by omega)]
      rw [if_pos hEnd]
      refine ⟨[(s.pname, .mk { legacyHeader s.pname s.pdata.length with
        image_list_end := flag } s.pdata
        (o + 512 + s.pdata.length + pad8 s.pdata.length) []
        (if lowerBytes s.pname = lkName then some 0 else none))], rfl, ?_⟩
      rw [projParts, List.map_cons, List.map_nil, List.map_cons,
        List.map_nil]
      congr 1
      show (s.pname, s.pdata, ([] : List LkPartition).map projCert) =
        specProj s
      rw [specProj, hpc]
      rfl
    · have hgt : goodTail (serialSpecList certsQ ++ streamParts qs) :=
        goodTail_certStream s.pname s.pcerts certsQ hwc hso.2.2 _ htail1
      rcases hgt with hnil | ⟨H', X, hX, hgH, hmH⟩
      · exact absurd hnil hend
      have hEnd : isEndOfPartitions contents
          (o + 512 + s.pdata.length + pad8 s.pdata.length) = false :=
        isEnd_false_unit contents _ H' X (by rw [hdropO1, hX]) ho1 hgH hmH
      rw [if_neg (by rw [hEnd]; exact Bool.false_ne_true)]
      have h0' : ∀ e ∈ partsAcc, e.1 ≠ s.pname :=
        (hasKey_false_iff partsAcc s.pname).mp (hkeys s (by simp))
      have hdropO2 : contents.drop
          (o + 512 + s.pdata.length + pad8 s.pdata.length +
            (serialSpecList certsQ).length) = streamParts qs :=
        drop_shift contents _ _ _ hdropO1
      have ho2 : o + 512 + s.pdata.length + pad8 s.pdata.length +
          (serialSpecList certsQ).length ≤ contents.length :=
        drop_length_le contents _ _ _ hdropO1 ho1
      have ho82 : (o + 512 + s.pdata.length + pad8 s.pdata.length +
          (serialSpecList certsQ).length) % 8 = 0 := by
        have h8 := serialSpecList_mod8 s.pname s.pcerts certsQ hwc hso.2.2
        omega
      have hfuelb : unitsCount ss + 1 + s.pcerts.length ≤ f := by
        rw [unitsCount, List.map_cons, List.sum_cons] at hfuel
        rw [unitsCount]
        omega
      have hcont : ∀ fuel', unitsCount ss + 1 ≤ fuel' →
          ∀ csNew : List LkPartition,
            csNew.map projCert =
              s.pcerts.map (fun c => (certNameOf s.pname c, c.cdata)) →
            ∃ res, parseLoop contents fuel'
                (o + 512 + s.pdata.length + pad8 s.pdata.length +
                  (serialSpecList certsQ).length) s.pname
                (partsAcc ++ [(s.pname,
                  LkPartition.mk { legacyHeader s.pname s.pdata.length with
                    image_list_end := flag } s.pdata
                    (o + 512 + s.pdata.length + pad8 s.pdata.length)
                    ([] ++ csNew)
                    (if lowerBytes s.pname = lkName then some 0
                     else none))]) = .ok res ∧
              (∃ csNew' entries',
                res = partsAcc ++ ((s.pname,
                  LkPartition.mk { legacyHeader s.pname s.pdata.length with
                    image_list_end := flag } s.pdata
                    (o + 512 + s.pdata.length + pad8 s.pdata.length) csNew'
                    (if lowerBytes s.pname = lkName then some 0
                     else none)) :: entries') ∧
                csNew'.map projCert =
                  s.pcerts.map (fun c => (certNameOf s.pname c, c.cdata)) ∧
                projParts entries' = ss.map specProj) := by
        intro fuel' hf' csNew hprojC
        have hkeys' : ∀ s' ∈ ss, hasKey (partsAcc ++ [(s.pname,
            LkPartition.mk { legacyHeader s.pname s.pdata.length with
              image_list_end := flag } s.pdata
              (o + 512 + s.pdata.length + pad8 s.pdata.length) csNew
              (if lowerBytes s.pname = lkName then some 0 else none))])
            s'.pname = false := by
          intro s' hs'
          rw [hasKey_append, Bool.or_eq_false_iff]
          refine ⟨hkeys s' (by simp [hs']), ?_⟩
          have hne : s.pname ≠ s'.pname := fun heq =>
            hnotin (heq ▸ List.mem_map_of_mem PartSpec.pname hs')
          simp [hasKey, hne]
        obtain ⟨entries', hE, hPE⟩ := parse_ownerSteps contents ss qs hrest
          hok' hnd' (o + 512 + s.pdata.length + pad8 s.pdata.length +
            (serialSpecList certsQ).length)
          (partsAcc ++ [(s.pname,
            LkPartition.mk { legacyHeader s.pname s.pdata.length with
              image_list_end := flag } s.pdata
              (o + 512 + s.pdata.length + pad8 s.pdata.length) csNew
              (if lowerBytes s.pname = lkName then some 0 else none))])
          s.pname hdropO2 ho2 ho82 hkeys' fuel' hf'
        refine ⟨(partsAcc ++ [(s.pname,
          LkPartition.mk { legacyHeader s.pname s.pdata.length with
            image_list_end := flag } s.pdata
            (o + 512 + s.pdata.length + pad8 s.pdata.length) csNew
            (if lowerBytes s.pname = lkName then some 0 else none))]) ++
          entries', ?_, csNew, entries', by simp, hprojC, hPE⟩
        simp only [List.nil_append]
        exact hE
      obtain ⟨res, hres, hQ⟩ := parse_certSteps contents s.pname
        hso.1.2.1
        (fun res => ∃ csNew entries',
          res = partsAcc ++ ((s.pname,
            LkPartition.mk { legacyHeader s.pname s.pdata.length with
              image_list_end := flag } s.pdata
              (o + 512 + s.pdata.length + pad8 s.pdata.length) csNew
              (if lowerBytes s.pname = lkName then some 0 else none)) ::
            entries') ∧
          csNew.map projCert =
            s.pcerts.map (fun c => (certNameOf s.pname c, c.cdata)) ∧
          projParts entries' = ss.map specProj)
        (unitsCount ss) s.pcerts certsQ hwc hso.2.2
        (o + 512 + s.pdata.length + pad8 s.pdata.length) (streamParts qs)
        partsAcc
        { legacyHeader s.pname s.pdata.length with image_list_end := flag }
        s.pdata (o + 512 + s.pdata.length + pad8 s.pdata.length) []
        (if lowerBytes s.pname = lkName then some 0 else none)
        hdropO1 ho1 ho81 htail1 h0' hcont f hfuelb
      obtain ⟨csNew, entries', hresEq, hprojC, hprojE⟩ := hQ
      refine ⟨(s.pname, LkPartition.mk
        { legacyHeader s.pname s.pdata.length with image_list_end := flag }
        s.pdata (o + 512 + s.pdata.length + pad8 s.pdata.length) csNew
        (if lowerBytes s.pname = lkName then some 0 else none)) ::
        entries', ?_, ?_⟩
      · rw [hres, hresEq]
      · show (s.pname, s.pdata, csNew.map projCert) ::
          projParts entries' = specProj s :: ss.map specProj
        rw [hprojE, hprojC, specProj]

theorem wfCerts_built (k : List Nat) (cspecs : List CertSpec) :
    wfCerts k (cspecs.map (builtCert k)) cspecs := by
  induction cspecs with
  | nil => exact trivial
  | cons c cs ih =>
    rw [List.map_cons, wfCerts]
    exact ⟨⟨0, by norm_num, rfl⟩, ih⟩

theorem wfParts_built (specs : List PartSpec) :
    wfParts (builtParts specs) specs := by
  induction specs with
  | nil => exact trivial
  | cons s ss ih =>
    rw [builtParts, List.map_cons, wfParts]
    exact ⟨rfl, ⟨0, 0, s.pcerts.map (builtCert s.pname), by norm_num, rfl,
      wfCerts_built s.pname s.pcerts⟩, ih⟩

theorem wfCerts_clear (k : List Nat) :
    ∀ (cspecs : List CertSpec) (cqs : List LkPartition),
      wfCerts k cqs cspecs →
      wfCerts k (cqs.map (LkPartition.setListEnd 0)) cspecs
  | [], [], _ => trivial
  | [], _ :: _, hwf => by cases hwf
  | _ :: _, [], hwf => by cases hwf
  | c :: cs, cq :: cqs, hwf => by
    rw [wfCerts] at hwf
    obtain ⟨⟨flag, hfl, rfl⟩, hrest⟩ := hwf
    rw [List.map_cons, wfCerts]
    exact ⟨⟨0, by norm_num, rfl⟩, wfCerts_clear k cs cqs hrest⟩

theorem wfParts_clear :
    ∀ (specs : List PartSpec) (qs : Parts),
      wfParts qs specs → wfParts (clearListEnds qs) specs
  | [], [], _ => trivial
  | [], _ :: _, hwf => by cases hwf
  | _ :: _, [], hwf => by cases hwf
  | s :: ss, (key, p) :: qs, hwf => by
    rw [wfParts] at hwf
    obtain ⟨hkey, ⟨flag, eo, certsQ, hfl, rfl, hwc⟩, hrest⟩ := hwf
    rw [clearListEnds, List.map_cons, wfParts]
    exact ⟨hkey, ⟨0, eo, certsQ.map (LkPartition.setListEnd 0),
      by norm_num, rfl, wfCerts_clear s.pname s.pcerts certsQ hwc⟩,
      wfParts_clear ss qs hrest⟩

theorem wfCerts_lastFlag (k : List Nat) :
    ∀ (cspecs : List CertSpec) (cqs : List LkPartition),
      wfCerts k cqs cspecs →
      ∀ lc, cqs.getLast? = some lc →
        wfCerts k (cqs.dropLast ++ [lc.setListEnd 1]) cspecs
  | [], [], _, lc, hlast => by cases hlast
  | [], _ :: _, hwf, _, _ => by cases hwf
  | _ :: _, [], hwf, _, _ => by cases hwf
  | c :: cs, cq :: cqs, hwf, lc, hlast => by
    rw [wfCerts] at hwf
    obtain ⟨⟨flag, hfl, rfl⟩, hrest⟩ := hwf
    cases cqs with
    | nil =>
      have hcs : cs = [] := by
        cases cs with
        | nil => rfl
        | cons c2 cs2 => cases hrest
      subst hcs
      simp only [List.getLast?_singleton, Option.some.injEq] at hlast
      subst hlast
      exact ⟨⟨1, by norm_num, rfl⟩, trivial⟩
    | cons cq2 cqs2 =>
      cases cs with
      | nil => cases hrest
      | cons c2 cs2 =>
        rw [List.getLast?_cons_cons] at hlast
        rw [show ((LkPartition.mk
            { certHeader k c with image_list_end := flag } c.cdata 0 []
            none :: cq2 :: cqs2).dropLast) =
          LkPartition.mk { certHeader k c with image_list_end := flag }
            c.cdata 0 [] none :: (cq2 :: cqs2).dropLast from rfl,
          List.cons_append, wfCerts]
        exact ⟨⟨flag, hfl, rfl⟩,
          wfCerts_lastFlag k (c2 :: cs2) (cq2 :: cqs2) hrest lc hlast⟩

theorem setLastListEnd_cons₂ (x y : List Nat × LkPartition) (l : Parts) :
    setLastListEnd (x :: y :: l) = x :: setLastListEnd (y :: l) := by
  rw [setLastListEnd, setLastListEnd, List.getLast?_cons_cons]
  cases h : (y :: l).getLast? with
  | none => rfl
  | some e => rfl

theorem wfParts_lastFlag :
    ∀ (specs : List PartSpec) (qs : Parts),
      wfParts qs specs → wfParts (setLastListEnd qs) specs
  | [], [], _ => trivial
  | [], _ :: _, hwf => by cases hwf
  | _ :: _, [], hwf => by cases hwf
  | s :: ss, (key, p) :: qs, hwf => by
    rw [wfParts] at hwf
    obtain ⟨hkey, ⟨flag, eo, certsQ, hfl, rfl, hwc⟩, hrest⟩ := hwf
    cases qs with
    | nil =>
      have hss : ss = [] := by
        cases ss with
        | nil => rfl
        | cons s2 ss2 => cases hrest
      subst hss
      rw [setLastListEnd]
      simp only [List.getLast?_singleton, List.dropLast_single,
        LkPartition.certs, List.nil_append]
      cases hc : certsQ.getLast? with
      | none =>
        have hcq : certsQ = [] := List.getLast?_eq_none_iff.mp hc
        subst hcq
        simp only [List.getLast?_nil]
        rw [wfParts]
        exact ⟨hkey, ⟨1, eo, [], by norm_num, rfl, hwc⟩, trivial⟩
      | some lc =>
        simp only [hc]
        rw [wfParts]
        refine ⟨hkey, ⟨flag, eo, certsQ.dropLast ++ [lc.setListEnd 1],
          hfl, rfl, ?_⟩, trivial⟩
        exact wfCerts_lastFlag s.pname s.pcerts certsQ hwc lc hc
    | cons e2 qs2 =>
      rw [setLastListEnd_cons₂, wfParts]
      exact ⟨hkey, ⟨flag, eo, certsQ, hfl, rfl, hwc⟩,
        wfParts_lastFlag ss (e2 :: qs2) hrest⟩

theorem serializeParts_wf :
    ∀ (specs : List PartSpec) (qs : Parts) (acc : List Nat),
      wfParts qs specs → (∀ s ∈ specs, specOK s) →
      ∃ qs', serializeParts qs acc = .ok (qs', acc ++ streamParts qs) ∧
        wfParts qs' specs
  | [], [], acc, _, _ =>
    ⟨[], by simp [serializeParts, streamParts], trivial⟩
  | [], _ :: _, _, hwf, _ => by cases hwf
  | _ :: _, [], _, hwf, _ => by cases hwf
  | s :: ss, (key, p) :: qs, acc, hwf, hok => by
    rw [wfParts] at hwf
    obtain ⟨hkey, ⟨flag, eo, certsQ, hfl, rfl, hwc⟩, hrest⟩ := hwf
    have hso : specOK s := hok s (by simp)
    have hok' : ∀ s' ∈ ss, specOK s' := fun s' hs' => hok s' (by simp [hs'])
    have hsz : sizesOk (LkPartition.mk
        { legacyHeader s.pname s.pdata.length with image_list_end := flag }
        s.pdata eo certsQ none) = true := by
      rw [sizesOk, Bool.and_eq_true]
      exact ⟨by simp [owner_data_size s.pname s.pdata.length flag hso.2.1],
        sizesOkList_wfCerts s.pname s.pcerts certsQ hwc hso.2.2⟩
    obtain ⟨qs', hser, hwf'⟩ := serializeParts_wf ss qs
      (acc ++ serialSpec (LkPartition.mk
        { legacyHeader s.pname s.pdata.length with image_list_end := flag }
        s.pdata eo certsQ none)) hrest hok'
    refine ⟨(key, (LkPartition.mk
      { legacyHeader s.pname s.pdata.length with image_list_end := flag }
      s.pdata eo certsQ none).setEndOffset
        (acc.length + (serialSpec (LkPartition.mk
          { legacyHeader s.pname s.pdata.length with
            image_list_end := flag } s.pdata eo certsQ none)).length)) ::
      qs', ?_, ?_⟩
    · simp only [serializeParts, partitionBytesE_ok _ hsz, hser, streamParts,
        List.map_cons, List.flatten_cons, List.append_assoc]
    · rw [wfParts]
      exact ⟨hkey, ⟨flag, _, certsQ, hfl, rfl, hwc⟩, hwf'⟩

theorem rebuildContents_built (specs : List PartSpec)
    (hok : ∀ s ∈ specs, specOK s) (hne : specs ≠ []) :
    ∃ qs', rebuildContents (builtParts specs) = .ok (qs',
        streamParts (setLastListEnd (clearListEnds (builtParts specs)))) ∧
      wfParts qs' specs := by
  have hwf2 : wfParts (setLastListEnd (clearListEnds (builtParts specs)))
      specs :=
    wfParts_lastFlag specs _ (wfParts_clear specs _ (wfParts_built specs))
  obtain ⟨qs', hser, hwf'⟩ := serializeParts_wf specs _ [] hwf2 hok
  refine ⟨qs', ?_, hwf'⟩
  rw [rebuildContents, if_neg ?_, hser]
  · rw [List.nil_append]
  · cases specs with
    | nil => exact absurd rfl hne
    | cons s ss => simp [builtParts]

/-- C1 (amended): the round trip holds for every collection built from
    specifications whose names are usable (at most 32 NUL-free ASCII bytes,
    not `cert`-prefixed) and pairwise distinct, with payloads below
    `2 ^ 32` bytes and certificate names fitting the 32-byte field:
    rebuilding the built collection succeeds, re-parsing the rebuilt byte
    stream succeeds, and the re-parsed collection carries the same ordered
    names, payloads and certificate structure as the rebuilt in-memory
    collection, namely exactly those of the specifications. -/
theorem c1 (specs : List PartSpec) (hok : ∀ s ∈ specs, specOK s)
    (hnd : (specs.map PartSpec.pname).Nodup) :
    ∃ parts' contents' img,
      rebuildContents (builtParts specs) = .ok (parts', contents') ∧
      lkImageOfBytes contents' = .ok img ∧
      projParts img.partitions = projParts parts' ∧
      projParts parts' = specs.map specProj := by
  by_cases hne : specs = []
  · subst hne
    exact ⟨[], [], { contents := [], partitions := [], version := 1 },
      rfl, rfl, rfl, rfl⟩
  · obtain ⟨qs', hreb, hwf'⟩ := rebuildContents_built specs hok hne
    have hwfn : wfParts (setLastListEnd (clearListEnds (builtParts specs)))
        specs :=
      wfParts_lastFlag specs _ (wfParts_clear specs _ (wfParts_built specs))
    obtain ⟨entries, hloop, hproj⟩ := parse_ownerSteps
      (streamParts (setLastListEnd (clearListEnds (builtParts specs))))
      specs _ hwfn hok hnd 0 [] [] (by rw [List.drop_zero])
      (Nat.zero_le _) rfl (fun _ _ => rfl)
      ((streamParts (setLastListEnd
        (clearListEnds (builtParts specs)))).length + 1)
      (by have := unitsCount_le_streamLength specs _ hwfn hok; omega)
    refine ⟨qs',
      streamParts (setLastListEnd (clearListEnds (builtParts specs))),
      { contents :=
          streamParts (setLastListEnd (clearListEnds (builtParts specs)))
        partitions := [] ++ entries
        version := detectVersion ([] ++ entries) }, hreb, ?_, ?_, ?_⟩
    · simp only [lkImageOfBytes, parsePartitions, hloop]
    · show projParts ([] ++ entries) = projParts qs'
      rw [List.nil_append, hproj, projParts_wfParts specs qs' hwf' hok]
    · exact projParts_wfParts specs qs' hwf' hok

theorem c1_witness :
    (∀ s ∈ c1WitSpecs, specOK s) ∧
    (c1WitSpecs.map PartSpec.pname).Nodup ∧
    (∃ parts' contents' img,
      rebuildContents (builtParts c1WitSpecs) = .ok (parts', contents') ∧
      lkImageOfBytes contents' = .ok img ∧
      projParts img.partitions = projParts parts' ∧
      projParts parts' = c1WitSpecs.map specProj) :=
  ⟨by decide, by decide, c1 c1WitSpecs (by decide) (by decide)⟩

set_option maxRecDepth 8192 in
/-- Building an image that holds one partition named `certx` through
    `add_partition` succeeds, but re-parsing its rebuilt contents fails
    with `InvalidLkPartition`: the parser takes the `cert`-prefixed name
    for a certificate with no preceding owner.  The built and re-parsed
    collections therefore differ, refuting the unrestricted round trip. -/
theorem c1_counterexample :
    (addPartition c1CEImg certxName []).map
      (fun r => lkImageOfBytes r.1.contents) =
      .ok (.error .invalidPartition) := by
  rfl

/-- Grounding: with default arguments (zero address and mode, `AP_BIN`
    type, auto format selection, 32-bit payload size), `_create_header`
    produces exactly the legacy header the round-trip builder uses. -/
theorem createHeader_default (nm : List Nat) (ds : Nat)
    (hlen : nm.length ≤ 32) (hascii : nm.all (· < 128) = true)
    (hds : ds ≤ 0xFFFFFFFF) :
    createHeader nm ds = .ok (legacyHeader nm ds) := by
  have hname : ¬ nm.length > 32 := by omega
  have henc : encodeCName nm =
      .ok (nm ++ List.replicate (32 - nm.length) 0) := by
    unfold encodeCName
    simp [hname, hascii]
  have hsel : ¬ (ds > 0xFFFFFFFF ∨ (0 : Nat) > 0xFFFFFFFF) := by omega
  unfold createHeader
  rw [if_neg hname]
  simp only [henc, Option.getD_none, decide_eq_false hsel,
    Bool.false_eq_true, if_false]
  rw [Except.ok.injEq]
  norm_num [legacyHeader, emptyHeader, ImageHeader.setDataSize,
    ImageHeader.setMemoryAddress, ImageHeader.is_extended, apBinImageType,
    EXT_MAGIC, MAGIC]

/-- Grounding: `add_partition` with default arguments inserts exactly the
    built partition (header `legacyHeader`, payload, no certificates) at
    the end and returns it alongside the rebuilt image. -/
theorem addPartition_built (img : LkImage) (nm : List Nat) (d : List Nat)
    (hkey : hasKey img.partitions nm = false)
    (hlen : nm.length ≤ 32) (hascii : nm.all (· < 128) = true)
    (hds : d.length ≤ 0xFFFFFFFF) :
    addPartition img nm d =
      match rebuildContents (img.partitions ++
          [(nm, .mk (legacyHeader nm d.length) d 0 [] none)]) with
      | .error e => .error e
      | .ok (parts', contents') =>
        .ok ({ img with partitions := parts', contents := contents' },
          .mk (legacyHeader nm d.length) d 0 [] none) := by
  unfold addPartition
  rw [hkey, createHeader_default nm d.length hlen hascii hds]
  rfl

/-- Grounding: on a legacy owner whose stored name reads back as `k`,
    `add_certificate` appends exactly the built certificate and returns
    it. -/
theorem addCertificate_built (p : LkPartition) (c : CertSpec)
    (k : List Nat) (hnb : p.header.nameBytes = k)
    (hm : p.header.magic = MAGIC) (hze : p.header.ext_magic = 0)
    (hlen : (certNameOf k c).length ≤ 32)
    (hascii : (certNameOf k c).all (· < 128) = true) :
    addCertificate p c.cdata (certTypeName c) =
      .ok (p.setCerts (p.certs ++ [builtCert k c]), builtCert k c) := by
  have htype : ¬ (certTypeName c ≠ cert1Name ∧ certTypeName c ≠ cert2Name)
      := by
    unfold certTypeName
    cases c.isCert1 <;> simp
  have henc : encodeCName (if k ≠ lkName then
      certTypeName c ++ [underscoreByte] ++ k else certTypeName c) =
      .ok (certNameOf k c ++
        List.replicate (32 - (certNameOf k c).length) 0) := by
    rw [show (if k ≠ lkName then certTypeName c ++ [underscoreByte] ++ k
      else certTypeName c) = certNameOf k c from rfl]
    unfold encodeCName
    rw [if_neg (by omega), if_neg (by rw [hascii]; simp)]
  unfold addCertificate
  rw [if_neg htype, hnb]
  simp only [henc, legacy_is_extended p.header hze, Bool.false_eq_true,
    if_false, Option.getD_none, hm]
  rw [Except.ok.injEq, Prod.mk.injEq]
  cases hb : c.isCert1 <;>
    norm_num [builtCert, certHeader, legacyHeader, emptyHeader,
      ImageHeader.setDataSize, ImageHeader.setMemoryAddress,
      ImageHeader.is_extended, apBinImageType, EXT_MAGIC, MAGIC,
      certTypeName, cert1Name, cert2Name, hb]

set_option maxRecDepth 16384 in
theorem c3_witness :
    c3Img.partitions.find? (fun e => e.1 == [112]) = some c3WitEntry ∧
    partApplyPatch c3WitEntry.2 [1] [9] = .ok c3WitP ∧
    rebuildContents (updatePart c3Img.partitions [112] c3WitP) =
      .ok (c3WitParts, c3WitContents) ∧
    imgApplyPatch c3Img [1] [9] (some [112]) =
      (none, { contents := c3WitContents, partitions := c3WitParts
               version := c3Img.version }) ∧
    nameData c3WitParts =
      c3Img.partitions.map
        (fun e => if e.1 == [112] then (e.1, c3WitP.data)
                  else (e.1, e.2.data)) := by
  have h := c3_patch_triggers_rebuild c3Img [112] [1] [9] c3WitEntry c3WitP
    c3WitParts c3WitContents rfl rfl rfl
  exact ⟨rfl, rfl, rfl, h.1, h.2⟩

end Liblk